import Mathlib

/-!
Verification development for the email fetching / processing application.

The definitions below are shallow embeddings of the JavaScript/TypeScript
source of the repository:

* `buildSearchCriteria` embeds the IMAP search-criteria construction in the
  POST /api/fetchEmails handler (api/index.js).
* `fetchAndParseEmailsFromFolder` embeds the per-folder open/search/fetch
  pipeline of api/index.js, with the IMAP server abstracted as a
  `FolderBehavior` oracle describing how the server answers each step.
* `fetchEmailsEndpoint` embeds the endpoint logic around it (folder
  flattening, per-folder limits, aggregation, sorting and truncation).
* `groupEmails` embeds the thread/subject grouping block of
  Dashboard.tsx (handleProcess).
* `extractTags` embeds the tag extraction / marker removal loop of
  EmailContext.tsx (processEmails, individual mode).
* `substitutePromptVariables` embeds utils/promptUtils.ts, including the
  JavaScript String.replace replacement-pattern expansion of dollar
  sequences in the replacement string.
* `processEmailsIndividual` embeds the individual-dispatch branch of
  EmailContext.processEmails, with the LLM completion call abstracted as a
  per-message `Except String String` outcome.

JavaScript strings are modelled as `List Char`; machine floating point does
not occur in the modelled fragments except `maxResults * 1.5`, which is
modelled exactly as rational arithmetic `3 * maxResults / 2` with ceiling
(exact for every realistic magnitude).
-/

/-! ### JavaScript string primitives -/

/-- JavaScript `String.prototype.toLowerCase`, modelled as a per-character
lowercase map (exact on the ASCII data handled by the application). -/
def jsLower (s : List Char) : List Char := s.map Char.toLower

/-- JavaScript whitespace class `\s` restricted to the common characters. -/
def jsIsSpace (c : Char) : Bool :=
  c = ' ' || c = '\t' || c = '\n' || c = '\r' || c = '\x0b' || c = '\x0c'

/-- JavaScript `String.prototype.trim`. -/
def jsTrim (s : List Char) : List Char :=
  ((s.dropWhile jsIsSpace).reverse.dropWhile jsIsSpace).reverse

theorem length_dropWhile_le {α : Type} (p : α → Bool) (l : List α) :
    (l.dropWhile p).length ≤ l.length := by
  induction l with
  | nil => simp
  | cons a l ih =>
    simp only [List.dropWhile]
    split
    · simp only [List.length_cons]; omega
    · simp

/-- Structural worker for `collapseWs`; the fuel is an upper bound on the
list length, so it never runs out on the initial call. -/
def collapseWsGo : Nat → List Char → List Char
  | _, [] => []
  | 0, l => l
  | fuel + 1, c :: rest =>
    if jsIsSpace c then ' ' :: collapseWsGo fuel (rest.dropWhile jsIsSpace)
    else c :: collapseWsGo fuel rest

/-- `replace(/\s+/g, ' ')`: collapse each maximal whitespace run to one space. -/
def collapseWs (l : List Char) : List Char := collapseWsGo l.length l

/-- The pattern `pat` occurs in `s` at position `j`. -/
def occursAt (pat s : List Char) (j : Nat) : Bool :=
  decide ((s.drop j).take pat.length = pat)

/-- Structural worker scanning positions `j, j+1, ...`; the fuel counts the
remaining candidate positions. -/
def idxSearchGo (pat s : List Char) : Nat → Nat → Option Nat
  | 0, _ => none
  | fuel + 1, j => if occursAt pat s j then some j else idxSearchGo pat s fuel (j + 1)

/-- Scan for the first occurrence of `pat` in `s` at a position `≥ j`
(positions `j` through `s.length` are candidates). -/
def idxSearch (pat s : List Char) (j : Nat) : Option Nat :=
  idxSearchGo pat s (s.length + 1 - j) j

/-- JavaScript `String.prototype.indexOf(pat, start)` (the start position is
clamped to the string length, as in ECMAScript). -/
def jsIndexOfFrom (pat s : List Char) (start : Nat) : Option Nat :=
  idxSearch pat s (min start s.length)

/-- JavaScript `String.prototype.includes(pat)`. -/
def jsIncludes (pat s : List Char) : Bool := (jsIndexOfFrom pat s 0).isSome

/-- JavaScript `arr.slice(-n)`: the last `n` elements, except that
`slice(-0)` is `slice(0)`, the whole array. -/
def jsSliceNeg {α : Type} (l : List α) (n : Nat) : List α :=
  if n = 0 then l else l.drop (l.length - n)

/-- JavaScript `s || d` for strings: the empty string is falsy. -/
def jsOrS (s d : String) : String := if s = "" then d else s

/-- JavaScript `o || d` where `o` may be `undefined` or a string. -/
def jsOrOS (o : Option String) (d : String) : String :=
  match o with
  | some s => jsOrS s d
  | none => d

/-- `String` wrapper for `jsTrim`. -/
def jsTrimS (s : String) : String := String.mk (jsTrim s.data)

/-! ### Search criteria construction (api/index.js, /api/fetchEmails)

The handler builds the IMAP search predicate from the request filters:

    let searchCriteria = [];
    if (status === 'unread') searchCriteria.push('UNSEEN');
    else if (status === 'read') searchCriteria.push('SEEN');
    if (startDate) searchCriteria.push(['SINCE', ...startDate UTC midnight]);
    if (endDate) { ...push(['BEFORE', end UTC midnight + 24h]); }
    if (subjectSearchTerm && subjectSearchTerm.trim() !== '')
      searchCriteria.push(['SUBJECT', subjectSearchTerm.trim()]);
    if (searchCriteria.length === 0) searchCriteria = ['ALL'];
-/

/-- A calendar date as sent in the request (the `YYYY-MM-DD` strings). -/
structure YMD where
  y : Int
  m : Nat
  d : Nat
deriving DecidableEq, Repr

/-- Days from the Unix epoch of a proleptic Gregorian date (the civil-date
algorithm; truncating division as in the reference implementation).  This is
the value produced by JavaScript `new Date("YYYY-MM-DDT00:00:00.000Z")`
divided by 86400000. -/
def daysFromCivil (dt : YMD) : Int :=
  let yadj : Int := if dt.m ≤ 2 then dt.y - 1 else dt.y
  let era : Int := Int.tdiv (if 0 ≤ yadj then yadj else yadj - 399) 400
  let yoe : Int := yadj - era * 400
  let mp : Int := ((dt.m : Int) + 9) % 12
  let doy : Int := Int.tdiv (153 * mp + 2) 5 + (dt.d : Int) - 1
  let doe : Int := yoe * 365 + Int.tdiv yoe 4 - Int.tdiv yoe 100 + doy
  era * 146097 + doe - 719468

/-- Epoch milliseconds of the UTC midnight of a date: the JavaScript value
`new Date(dateString + "T00:00:00.000Z").getTime()`. -/
def utcMidnightMillis (dt : YMD) : Int := daysFromCivil dt * 86400000

/-- One token of the IMAP search predicate built by the handler. -/
inductive SearchTok where
  | UNSEEN : SearchTok
  | SEEN : SearchTok
  | SINCE (t : Int) : SearchTok
  | BEFORE (t : Int) : SearchTok
  | SUBJECT (s : String) : SearchTok
  | ALL : SearchTok
deriving DecidableEq, Repr

/-- The body of a /api/fetchEmails request (filter fields). -/
structure FetchReq where
  folder : String
  fetchAllFolders : Bool
  startDate : Option YMD
  endDate : Option YMD
  status : String
  maxResults : Nat
  subjectSearchTerm : Option String

/-- The search-criteria construction of the handler, line by line. -/
def buildSearchCriteria (req : FetchReq) : List SearchTok :=
  let c : List SearchTok := []
  let c := if req.status = "unread" then c ++ [SearchTok.UNSEEN]
           else if req.status = "read" then c ++ [SearchTok.SEEN] else c
  let c := match req.startDate with
           | some d => c ++ [SearchTok.SINCE (utcMidnightMillis d)]
           | none => c
  let c := match req.endDate with
           | some d => c ++ [SearchTok.BEFORE (utcMidnightMillis d + 24 * 60 * 60 * 1000)]
           | none => c
  let c := match req.subjectSearchTerm with
           | some s => if s ≠ "" ∧ jsTrimS s ≠ "" then c ++ [SearchTok.SUBJECT (jsTrimS s)] else c
           | none => c
  if c = [] then [SearchTok.ALL] else c

/-- Spec-side definition, for comparison with the code: the token
contributed by the read-status filter ("append unseen or seen token if a
read-status filter is set"). -/
def specStatusToks (req : FetchReq) : List SearchTok :=
  if req.status = "unread" then [SearchTok.UNSEEN]
  else if req.status = "read" then [SearchTok.SEEN] else []

/-- Spec-side definition, for comparison with the code: the since-bound at
the start date UTC midnight. -/
def specSinceToks (req : FetchReq) : List SearchTok :=
  match req.startDate with
  | some d => [SearchTok.SINCE (utcMidnightMillis d)]
  | none => []

/-- Spec-side definition, for comparison with the code: the before-bound,
the end date UTC midnight plus exactly 24 hours (86400000 ms), making the
end date inclusive. -/
def specBeforeToks (req : FetchReq) : List SearchTok :=
  match req.endDate with
  | some d => [SearchTok.BEFORE (utcMidnightMillis d + 86400000)]
  | none => []

/-- Spec-side definition, for comparison with the code: the subject
substring token, present when the subject search term is set and non-blank
after trimming. -/
def specSubjectToks (req : FetchReq) : List SearchTok :=
  match req.subjectSearchTerm with
  | some s => if jsTrimS s ≠ "" then [SearchTok.SUBJECT (jsTrimS s)] else []
  | none => []

/-- Spec-side definition, for comparison with the code: exactly the tokens
implied by the set filters, with predicate ["ALL"] when no filter produced
a token. -/
def specSearchCriteria (req : FetchReq) : List SearchTok :=
  let toks := specStatusToks req ++ specSinceToks req ++ specBeforeToks req ++ specSubjectToks req
  if toks = [] then [SearchTok.ALL] else toks

theorem jsTrim_nil : jsTrim [] = [] := rfl

theorem jsTrimS_empty_of (s : String) (h : jsTrimS s ≠ "") : s ≠ "" := by
  intro he
  subst he
  exact h rfl

theorem subjCond_iff (s : String) : (s ≠ "" ∧ jsTrimS s ≠ "") ↔ jsTrimS s ≠ "" :=
  ⟨fun h => h.2, fun h => ⟨jsTrimS_empty_of s h, h⟩⟩

theorem all_not_mem_specStatusToks (req : FetchReq) :
    SearchTok.ALL ∉ specStatusToks req := by
  unfold specStatusToks
  split
  · simp
  · split <;> simp

theorem all_not_mem_specSinceToks (req : FetchReq) :
    SearchTok.ALL ∉ specSinceToks req := by
  rcases hs : req.startDate with _ | d <;> simp [specSinceToks, hs]

theorem all_not_mem_specBeforeToks (req : FetchReq) :
    SearchTok.ALL ∉ specBeforeToks req := by
  rcases hs : req.endDate with _ | d <;> simp [specBeforeToks, hs]

theorem all_not_mem_specSubjectToks (req : FetchReq) :
    SearchTok.ALL ∉ specSubjectToks req := by
  rcases hs : req.subjectSearchTerm with _ | s <;> simp [specSubjectToks, hs]

/-- C1.  The built IMAP predicate contains exactly the tokens implied by the
set filters (UNSEEN/SEEN for the read-status filter, SINCE at the start date
UTC midnight, BEFORE at the end date UTC midnight plus exactly 24 hours,
SUBJECT with the trimmed non-blank search term), and it is exactly [ALL]
precisely when no filter produced a token. -/
theorem buildSearchCriteria_exact (req : FetchReq) :
    buildSearchCriteria req = specSearchCriteria req ∧
    (buildSearchCriteria req = [SearchTok.ALL] ↔
      specStatusToks req = [] ∧ specSinceToks req = [] ∧
      specBeforeToks req = [] ∧ specSubjectToks req = []) := by
  have heq : buildSearchCriteria req = specSearchCriteria req := by
    unfold buildSearchCriteria specSearchCriteria specStatusToks specSinceToks
      specBeforeToks specSubjectToks
    rcases req.startDate with _ | d1 <;> rcases req.endDate with _ | d2 <;>
      rcases req.subjectSearchTerm with _ | s <;>
      by_cases h1 : req.status = "unread" <;>
      by_cases h2 : req.status = "read" <;>
      simp [h1, h2, subjCond_iff] <;> try (split <;> simp)
  refine ⟨heq, ?_⟩
  rw [heq]
  unfold specSearchCriteria
  constructor
  · intro h
    by_cases ht : specStatusToks req ++ specSinceToks req ++ specBeforeToks req
        ++ specSubjectToks req = []
    · simpa [List.append_eq_nil] using ht
    · rw [if_neg ht] at h
      have hmem : SearchTok.ALL ∈ specStatusToks req ++ specSinceToks req
          ++ specBeforeToks req ++ specSubjectToks req := by
        rw [h]; simp
      simp only [List.mem_append] at hmem
      rcases hmem with ((hm | hm) | hm) | hm
      · exact absurd hm (all_not_mem_specStatusToks req)
      · exact absurd hm (all_not_mem_specSinceToks req)
      · exact absurd hm (all_not_mem_specBeforeToks req)
      · exact absurd hm (all_not_mem_specSubjectToks req)
  · rintro ⟨e1, e2, e3, e4⟩
    simp [e1, e2, e3, e4]

/-- End-to-end scenario 2 of the spec: a single folder, unread status,
start and end date both 2024-01-01, gives predicate
[UNSEEN, SINCE 2024-01-01T00:00Z, BEFORE 2024-01-02T00:00Z]. -/
theorem searchCriteria_scenario2 :
    buildSearchCriteria
      { folder := "INBOX", fetchAllFolders := false,
        startDate := some ⟨2024, 1, 1⟩, endDate := some ⟨2024, 1, 1⟩,
        status := "unread", maxResults := 20, subjectSearchTerm := none } =
      [SearchTok.UNSEEN, SearchTok.SINCE 1704067200000,
       SearchTok.BEFORE 1704153600000] := by
  decide

/-! ### The normalized message record

One record per fetched mail item, as pushed by fetchAndParseEmailsFromFolder
in api/index.js and consumed by the Dashboard.  The loosely typed JavaScript
object is modelled with optional fields for attributes that are only present
in some producers (gmThreadId is read by the grouping code but never set by
the server, which sets gmMsgId; folders is only set by grouping). -/

structure Email where
  id : Nat
  gmMsgId : Option Nat
  gmThreadId : Option String
  sender : String
  subject : String
  date : Int
  read : Bool
  flags : List String
  body : String
  folder : String
  folders : List String
deriving DecidableEq, Repr

/-! ### Per-folder fetch pipeline (api/index.js, fetchAndParseEmailsFromFolder)

The IMAP server is abstracted as a `FolderBehavior` oracle describing how it
answers the open, search and fetch steps for one folder.  The source:

  - openBox failure or search failure is caught by the surrounding
    try/catch, which returns [] ("Return empty array on error to allow
    processing other folders");
  - a zero-message mailbox or an empty search result returns [] immediately;
  - the per-folder limit is applied with uids.slice(-maxResultsPerFolder);
  - a fetch stream error rejects the returned promise, so it propagates to
    the caller (it is not caught by the try/catch, which only covers the
    synchronous prefix);
  - each fetched message with no attributes record is skipped; a message
    whose body fails to parse is still pushed with a parse-error body.
-/

/-- The attributes record delivered by the server for one message. -/
structure Attrs where
  uid : Nat
  date : Int
  flags : List String
  gmLabels : Option (List String)
  gmMsgId : Option Nat
deriving DecidableEq, Repr

/-- The outcome of mailparser simpleParser on one raw message. -/
structure ParsedMail where
  fromText : Option String
  subject : Option String
  text : Option String
  html : Option String
deriving DecidableEq, Repr

instance exceptDecEq {α β : Type} [DecidableEq α] [DecidableEq β] :
    DecidableEq (Except α β) := fun a b =>
  match a, b with
  | Except.error x, Except.error y => decidable_of_iff (x = y) (by simp)
  | Except.ok x, Except.ok y => decidable_of_iff (x = y) (by simp)
  | Except.error _, Except.ok _ => isFalse (by simp)
  | Except.ok _, Except.error _ => isFalse (by simp)

/-- One message as delivered by the fetch stream: its attributes record (or
none when the server delivered no attributes event) and the body parse
outcome. -/
structure FetchedItem where
  attrs : Option Attrs
  parse : Except String ParsedMail
deriving DecidableEq, Repr

/-- How the server answers the steps for one folder. -/
inductive FolderBehavior where
  | openFail (msg : String) : FolderBehavior
  | opened (total : Nat)
      (search : List SearchTok → Except String (List Nat))
      (fetch : List Nat → Except String (List FetchedItem)) : FolderBehavior

/-- body := parsed.text || (parsed.html ? gated placeholder : not-found). -/
def htmlFallback (p : ParsedMail) : String :=
  match p.html with
  | some h => if h = "" then "(no text body found)" else "[HTML content only]"
  | none => "(no text body found)"

def bodyOf (p : ParsedMail) : String :=
  match p.text with
  | some t => if t = "" then htmlFallback p else t
  | none => htmlFallback p

/-- Build the normalized record pushed for one fetched item, or none when no
attributes record was delivered (the message is skipped). -/
def emitItem (folderName : String) (it : FetchedItem) : Option Email :=
  match it.attrs with
  | none => none
  | some a =>
    match it.parse with
    | Except.ok p =>
      some { id := a.uid, gmMsgId := a.gmMsgId, gmThreadId := none,
             sender := jsOrOS p.fromText "(no sender)",
             subject := jsOrOS p.subject "(no subject)",
             date := a.date,
             read := "\\Seen" ∈ a.flags,
             flags := a.gmLabels.getD a.flags,
             body := bodyOf p,
             folder := folderName, folders := [] }
    | Except.error m =>
      some { id := a.uid, gmMsgId := a.gmMsgId, gmThreadId := none,
             sender := "(parse error)", subject := "(parse error)",
             date := a.date,
             read := "\\Seen" ∈ a.flags,
             flags := a.gmLabels.getD a.flags,
             body := "(parse error: " ++ m ++ ")",
             folder := folderName, folders := [] }

/-- The per-folder open/search/fetch pipeline of api/index.js. -/
def fetchAndParseEmailsFromFolder (folderName : String) (fb : FolderBehavior)
    (searchCriteria : List SearchTok) (maxResultsPerFolder : Nat) :
    Except String (List Email) :=
  match fb with
  | FolderBehavior.openFail _ => Except.ok []
  | FolderBehavior.opened total search fetch =>
    if total = 0 then Except.ok []
    else
      match search searchCriteria with
      | Except.error _ => Except.ok []
      | Except.ok uids =>
        if uids.isEmpty then Except.ok []
        else
          let limitedUIDs := jsSliceNeg uids maxResultsPerFolder
          if limitedUIDs.isEmpty then Except.ok []
          else
            match fetch limitedUIDs with
            | Except.error m =>
                Except.error ("Fetch stream error in " ++ folderName ++ ": " ++ m)
            | Except.ok items => Except.ok (items.filterMap (emitItem folderName))

/-! ### Endpoint aggregation (api/index.js, /api/fetchEmails handler) -/

/-- JavaScript `String.prototype.toUpperCase` (per-character). -/
def jsUpperS (s : String) : String := String.mk (s.data.map Char.toUpper)

/-- One node of the folder hierarchy returned by getBoxes. -/
structure BoxNode where
  name : String
  delimiter : String
  attribs : List String
  children : List BoxNode

/-- The recursive folder flattener of the handler: push each path not marked
Noselect, then recurse into children with the extended path. -/
def flattenFolders : List BoxNode → String → List String
  | [], _ => []
  | b :: rest, pre =>
    let currentPath := if pre = "" then b.name else pre ++ b.delimiter ++ b.name
    (if "\\Noselect" ∈ b.attribs then [] else [currentPath])
      ++ flattenFolders b.children currentPath
      ++ flattenFolders rest pre
termination_by bs _ => sizeOf bs
decreasing_by
  · cases b
    simp
    omega
  · simp

/-- The skip test in the all-folders loop: the [Gmail] container, or a path
whose uppercased form contains NOSELECT. -/
def skipFolder (folderName : String) : Bool :=
  jsUpperS folderName = "[GMAIL]"
    || jsIncludes "\\NOSELECT".data (jsUpperS folderName).data

/-- The per-folder limit of the handler:
Math.max(10, Math.ceil(maxResults * 1.5 / Math.max(1, folderNames.length))),
modelled exactly as max 10 (ceil (3 * maxResults / (2 * max 1 count))). -/
def perFolderLimit (maxResults folderCount : Nat) : Nat :=
  max 10 ((3 * maxResults + (2 * max 1 folderCount - 1)) / (2 * max 1 folderCount))

/-- allFetchedEmails.sort((a, b) => (b.date || 0) - (a.date || 0)): a stable
sort placing larger timestamps first. -/
def sortByDateDesc (l : List Email) : List Email :=
  l.mergeSort (fun a b => decide (b.date ≤ a.date))

/-- One IMAP account as seen by the endpoint: the folder hierarchy and the
behavior of each folder path. -/
structure ImapServer where
  boxes : List BoxNode
  folder : String → FolderBehavior

/-- The sequential all-folders loop: skip known non-mail containers, fetch
each remaining folder, skip a folder whose fetch fails, concatenate. -/
def collectAllFolders (srv : ImapServer) (criteria : List SearchTok)
    (lim : Nat) (names : List String) : List Email :=
  names.foldl
    (fun acc n =>
      if skipFolder n then acc
      else
        match fetchAndParseEmailsFromFolder n (srv.folder n) criteria lim with
        | Except.ok l => acc ++ l
        | Except.error _ => acc)
    []

/-- The /api/fetchEmails handler after a ready connection: build criteria,
fetch one folder or all folders, sort by date descending, truncate to
maxResults.  An error outcome is the 500 response of handleImapError. -/
def fetchEmailsEndpoint (srv : ImapServer) (req : FetchReq) :
    Except String (List Email) :=
  let criteria := buildSearchCriteria req
  if req.fetchAllFolders then
    let folderNames := flattenFolders srv.boxes ""
    let lim := perFolderLimit req.maxResults folderNames.length
    let allFetched := collectAllFolders srv criteria lim folderNames
    Except.ok ((sortByDateDesc allFetched).take req.maxResults)
  else
    match fetchAndParseEmailsFromFolder req.folder (srv.folder req.folder)
        criteria req.maxResults with
    | Except.error e => Except.error e
    | Except.ok l => Except.ok ((sortByDateDesc l).take req.maxResults)

/-! ### Supporting lemmas about the per-folder pipeline -/

theorem emitItem_isSome (f : String) (it : FetchedItem) :
    (emitItem f it).isSome = it.attrs.isSome := by
  rcases it with ⟨attrs, parse⟩
  cases attrs <;> cases parse <;> rfl

theorem length_filterMap_eq {α β : Type} (f : α → Option β) (l : List α) :
    (l.filterMap f).length = (l.filter (fun x => (f x).isSome)).length := by
  induction l with
  | nil => rfl
  | cons a l ih =>
    rcases h : f a with _ | b <;>
      simp [List.filterMap_cons, List.filter_cons, h, ih]

theorem jsSliceNeg_ne_nil {α : Type} (l : List α) (n : Nat) (h : l ≠ []) :
    jsSliceNeg l n ≠ [] := by
  unfold jsSliceNeg
  by_cases hn : n = 0
  · rw [if_pos hn]; exact h
  · rw [if_neg hn]
    intro hd
    have hlen := congrArg List.length hd
    simp only [List.length_drop, List.length_nil] at hlen
    have hl : l.length ≠ 0 := by
      intro hz
      exact h (List.eq_nil_of_length_eq_zero hz)
    omega

theorem jsSliceNeg_eq_self {α : Type} (l : List α) (n : Nat) (h : l.length ≤ n) :
    jsSliceNeg l n = l := by
  unfold jsSliceNeg
  by_cases hn : n = 0
  · rw [if_pos hn]
  · rw [if_neg hn]
    have : l.length - n = 0 := by omega
    rw [this, List.drop_zero]

/-- C10.  A fetched message for which the server delivers no attributes
record is silently skipped (no record is emitted for it, so the returned
list counts only items with attributes and can be shorter than the number
of fetched identifiers), while a body-parse failure still emits a record
with a parse-error body. -/
theorem fetchAndParse_missing_attrs_skipped
    (folderName : String) (total : Nat)
    (search : List SearchTok → Except String (List Nat))
    (fetch : List Nat → Except String (List FetchedItem))
    (crit : List SearchTok) (lim : Nat) (uids : List Nat)
    (items : List FetchedItem)
    (htotal : total ≠ 0) (hs : search crit = Except.ok uids) (hne : uids ≠ [])
    (hf : fetch (jsSliceNeg uids lim) = Except.ok items) :
    fetchAndParseEmailsFromFolder folderName
        (FolderBehavior.opened total search fetch) crit lim
      = Except.ok (items.filterMap (emitItem folderName))
    ∧ (items.filterMap (emitItem folderName)).length
        = (items.filter (fun it => it.attrs.isSome)).length
    ∧ (∀ it, it ∈ items → it.attrs = none → emitItem folderName it = none)
    ∧ (∀ it a m, it.attrs = some a → it.parse = Except.error m →
        ∃ e, emitItem folderName it = some e ∧ e.id = a.uid
          ∧ e.body = "(parse error: " ++ m ++ ")") := by
  refine ⟨?_, ?_, ?_, ?_⟩
  · simp only [fetchAndParseEmailsFromFolder]
    rw [if_neg htotal, hs]
    have h1 : uids.isEmpty = false := by
      cases uids
      · exact absurd rfl hne
      · rfl
    have h2 : (jsSliceNeg uids lim).isEmpty = false := by
      rcases hsl : jsSliceNeg uids lim with _ | ⟨a, l⟩
      · exact absurd hsl (jsSliceNeg_ne_nil uids lim hne)
      · rfl
    simp [h1, h2, hf]
  · rw [length_filterMap_eq]
    congr 1
    apply List.filter_congr
    intro it _
    rw [emitItem_isSome]
  · intro it _ hnone
    unfold emitItem
    rw [hnone]
  · intro it a m ha hm
    rcases it with ⟨attrs, parse⟩
    cases ha
    cases hm
    exact ⟨_, rfl, rfl, rfl⟩

def c10Items : List FetchedItem :=
  [ { attrs := none,
      parse := Except.ok { fromText := some "alice@example.com",
                           subject := some "hi", text := some "body one",
                           html := none } },
    { attrs := some { uid := 42, date := 1700000000000, flags := ["\\Seen"],
                      gmLabels := none, gmMsgId := none },
      parse := Except.error "bad mime" } ]

/-- Witness for C10: two fetched items, the first with no attributes record
and the second with a parse failure; only one record is returned (the list
is shorter than the two fetched identifiers) and it carries the parse-error
body. -/
theorem fetchAndParse_missing_attrs_skipped_witness :
    fetchAndParseEmailsFromFolder "INBOX"
        (FolderBehavior.opened 2 (fun _ => Except.ok [41, 42])
          (fun _ => Except.ok c10Items)) [SearchTok.ALL] 20
      = Except.ok (c10Items.filterMap (emitItem "INBOX"))
    ∧ (c10Items.filterMap (emitItem "INBOX")).length = 1
    ∧ (c10Items.filterMap (emitItem "INBOX")).map (fun e => e.body)
      = ["(parse error: bad mime)"] := by
  refine ⟨(fetchAndParse_missing_attrs_skipped "INBOX" 2
    (fun _ => Except.ok [41, 42]) (fun _ => Except.ok c10Items)
    [SearchTok.ALL] 20 [41, 42] c10Items
    (by decide) rfl (by decide) rfl).1, by decide, by decide⟩

/-! ### Claim C3: error handling for failing folders -/

def c3OpenFailSrv : ImapServer :=
  { boxes := [], folder := fun _ => FolderBehavior.openFail "cannot open INBOX" }

def c3SingleReq : FetchReq :=
  { folder := "INBOX", fetchAllFolders := false, startDate := none,
    endDate := none, status := "all", maxResults := 20,
    subjectSearchTerm := none }

/-- Counterexample to C3 as stated: an open failure is caught inside
fetchAndParseEmailsFromFolder (its try/catch returns an empty array) and so
is NOT propagated to the caller as a per-folder error; in single-folder
mode the endpoint then answers with a successful empty result instead of
aborting with an error response. -/
theorem c3_open_failure_not_propagated :
    fetchAndParseEmailsFromFolder "INBOX"
        (FolderBehavior.openFail "cannot open INBOX") [SearchTok.ALL] 20
      = Except.ok []
    ∧ fetchEmailsEndpoint c3OpenFailSrv c3SingleReq = Except.ok [] := by
  constructor
  · decide
  · have hf : fetchAndParseEmailsFromFolder c3SingleReq.folder
        (c3OpenFailSrv.folder c3SingleReq.folder)
        (buildSearchCriteria c3SingleReq) c3SingleReq.maxResults
        = Except.ok [] := rfl
    unfold fetchEmailsEndpoint
    rw [if_neg (by decide)]
    rw [hf]
    simp [sortByDateDesc]

/-- The contribution of one folder to the all-folders aggregation: nothing
for a skipped folder or a failed folder, its fetched list otherwise. -/
def folderContribution (srv : ImapServer) (criteria : List SearchTok)
    (lim : Nat) (n : String) : List Email :=
  if skipFolder n then []
  else
    match fetchAndParseEmailsFromFolder n (srv.folder n) criteria lim with
    | Except.ok l => l
    | Except.error _ => []

theorem collectAllFolders_go (srv : ImapServer) (criteria : List SearchTok)
    (lim : Nat) :
    ∀ (names : List String) (init : List Email),
      names.foldl
        (fun acc n =>
          if skipFolder n then acc
          else
            match fetchAndParseEmailsFromFolder n (srv.folder n) criteria lim with
            | Except.ok l => acc ++ l
            | Except.error _ => acc)
        init
      = init ++ (names.map (folderContribution srv criteria lim)).flatten := by
  intro names
  induction names with
  | nil => intro init; simp
  | cons a l ih =>
    intro init
    simp only [List.foldl_cons, List.map_cons, List.flatten, ih]
    unfold folderContribution
    by_cases hskip : skipFolder a
    · simp [hskip]
    · rcases hres : fetchAndParseEmailsFromFolder a (srv.folder a) criteria lim
        with e | res <;> simp [hskip, hres, List.append_assoc]

/-- C3 amended.  Open and search failures are caught inside
fetchAndParseEmailsFromFolder, which returns an empty list, so the folder
is silently treated as empty in both modes; only a fetch-stream failure
propagates as a per-folder error, and then single-folder mode aborts the
query with an error response while all-folders mode contributes nothing
for the failed folder and still processes the remaining folders. -/
theorem folderError_handling :
    (∀ (folderName msg : String) (crit : List SearchTok) (lim : Nat),
        fetchAndParseEmailsFromFolder folderName
          (FolderBehavior.openFail msg) crit lim = Except.ok [])
    ∧ (∀ (folderName : String) (total : Nat) search fetch (msg : String)
          (crit : List SearchTok) (lim : Nat),
        search crit = Except.error msg →
        fetchAndParseEmailsFromFolder folderName
          (FolderBehavior.opened total search fetch) crit lim = Except.ok [])
    ∧ (∀ (folderName : String) (total : Nat) search fetch (msg : String)
          (crit : List SearchTok) (lim : Nat) (uids : List Nat),
        total ≠ 0 → search crit = Except.ok uids → uids ≠ [] →
        fetch (jsSliceNeg uids lim) = Except.error msg →
        fetchAndParseEmailsFromFolder folderName
          (FolderBehavior.opened total search fetch) crit lim
          = Except.error ("Fetch stream error in " ++ folderName ++ ": " ++ msg))
    ∧ (∀ (srv : ImapServer) (req : FetchReq) (e : String),
        req.fetchAllFolders = false →
        fetchAndParseEmailsFromFolder req.folder (srv.folder req.folder)
          (buildSearchCriteria req) req.maxResults = Except.error e →
        fetchEmailsEndpoint srv req = Except.error e)
    ∧ (∀ (srv : ImapServer) (criteria : List SearchTok) (lim : Nat)
          (names : List String),
        collectAllFolders srv criteria lim names
          = (names.map (folderContribution srv criteria lim)).flatten) := by
  refine ⟨?_, ?_, ?_, ?_, ?_⟩
  · intro folderName msg crit lim
    rfl
  · intro folderName total search fetch msg crit lim hs
    simp only [fetchAndParseEmailsFromFolder]
    by_cases ht : total = 0
    · rw [if_pos ht]
    · rw [if_neg ht, hs]
  · intro folderName total search fetch msg crit lim uids ht hs hne hf
    simp only [fetchAndParseEmailsFromFolder]
    rw [if_neg ht, hs]
    have h1 : uids.isEmpty = false := by
      cases uids
      · exact absurd rfl hne
      · rfl
    have h2 : (jsSliceNeg uids lim).isEmpty = false := by
      rcases hsl : jsSliceNeg uids lim with _ | ⟨a, l⟩
      · exact absurd hsl (jsSliceNeg_ne_nil uids lim hne)
      · rfl
    simp [h1, h2, hf]
  · intro srv req e hmode herr
    unfold fetchEmailsEndpoint
    rw [if_neg (by simp [hmode]), herr]
  · intro srv criteria lim names
    simpa using collectAllFolders_go srv criteria lim names []

def c3StreamFailSrv : ImapServer :=
  { boxes := [{ name := "INBOX", delimiter := "/", attribs := [], children := [] }],
    folder := fun _ =>
      FolderBehavior.opened 3 (fun _ => Except.ok [7])
        (fun _ => Except.error "connection reset") }

/-- Witness for the amended C3: an open failure yields a successful empty
per-folder result, while a fetch-stream failure in single-folder mode
aborts the endpoint with the error response. -/
theorem folderError_handling_witness :
    fetchAndParseEmailsFromFolder "Work"
        (FolderBehavior.openFail "no mailbox") [SearchTok.ALL] 20
      = Except.ok []
    ∧ fetchEmailsEndpoint c3StreamFailSrv c3SingleReq
      = Except.error "Fetch stream error in INBOX: connection reset" := by
  constructor
  · exact folderError_handling.1 "Work" "no mailbox" [SearchTok.ALL] 20
  · exact folderError_handling.2.2.2.1 c3StreamFailSrv c3SingleReq
      "Fetch stream error in INBOX: connection reset" rfl (by decide)

/-! ### Claim C2: all-folders aggregation and limiting -/

/-- The collection the all-folders branch aggregates before sorting and
truncating: every flattened folder, with the per-folder limit computed from
the requested maxResults and the folder count. -/
def allCollected (srv : ImapServer) (req : FetchReq) : List Email :=
  collectAllFolders srv (buildSearchCriteria req)
    (perFolderLimit req.maxResults (flattenFolders srv.boxes "").length)
    (flattenFolders srv.boxes "")

theorem fetchAll_endpoint_eq (srv : ImapServer) (req : FetchReq)
    (h : req.fetchAllFolders = true) :
    fetchEmailsEndpoint srv req
      = Except.ok ((sortByDateDesc (allCollected srv req)).take req.maxResults) := by
  simp [fetchEmailsEndpoint, allCollected, h]

theorem sortByDateDesc_pairwise (l : List Email) :
    List.Pairwise (fun a b : Email => b.date ≤ a.date) (sortByDateDesc l) := by
  have htrans : ∀ a b c : Email,
      decide (b.date ≤ a.date) = true → decide (c.date ≤ b.date) = true →
      decide (c.date ≤ a.date) = true := by
    intro a b c h1 h2
    simp only [decide_eq_true_eq] at h1 h2 ⊢
    exact le_trans h2 h1
  have htotal : ∀ a b : Email,
      (decide (b.date ≤ a.date) || decide (a.date ≤ b.date)) = true := by
    intro a b
    simp only [Bool.or_eq_true, decide_eq_true_eq]
    exact le_total _ _
  have hs := List.sorted_mergeSort htrans htotal l
  exact hs.imp (fun h => of_decide_eq_true h)

/-- End-to-end scenario 1 of the spec: maxResults = 100 over 3 folders
gives a per-folder limit of max(10, ceil(100 * 1.5 / 3)) = 50. -/
theorem perFolderLimit_scenario1 : perFolderLimit 100 3 = 50 := by decide

/-- C2 amended.  In all-folders mode the endpoint returns the combined
per-folder results sorted by timestamp descending and truncated to the
requested maxResults (the effective maximum IS maxResults; there is no
separate fixed ceiling), and each folder is queried with
perFolderLimit = max(10, ceil(maxResults * 1.5 / max(1, folderCount))). -/
theorem fetchAllFolders_aggregation (srv : ImapServer) (req : FetchReq)
    (h : req.fetchAllFolders = true) :
    fetchEmailsEndpoint srv req
      = Except.ok ((sortByDateDesc (allCollected srv req)).take req.maxResults)
    ∧ (∀ l, fetchEmailsEndpoint srv req = Except.ok l →
        l.length = min req.maxResults (allCollected srv req).length
        ∧ List.Pairwise (fun a b : Email => b.date ≤ a.date) l
        ∧ l ⊆ allCollected srv req) := by
  have he := fetchAll_endpoint_eq srv req h
  refine ⟨he, ?_⟩
  intro l hl
  rw [he] at hl
  have hl2 : (sortByDateDesc (allCollected srv req)).take req.maxResults = l := by
    injection hl
  subst hl2
  refine ⟨?_, ?_, ?_⟩
  · rw [List.length_take, sortByDateDesc, List.length_mergeSort]
  · exact (sortByDateDesc_pairwise (allCollected srv req)).sublist
      (List.take_sublist _ _)
  · intro x hx
    exact (List.mergeSort_perm (allCollected srv req) _).subset
      (List.take_subset _ _ hx)

/-! A family of single-folder servers holding `n` matching messages,
used to exhibit that the returned count grows without bound with the
requested maxResults (no fixed ceiling exists). -/

def bigItem (u : Nat) : FetchedItem :=
  { attrs := some { uid := u, date := (u : Int), flags := [],
                    gmLabels := none, gmMsgId := none },
    parse := Except.ok { fromText := some "a@b.c", subject := some "s",
                         text := some "t", html := none } }

def bigEmail (u : Nat) : Email :=
  { id := u, gmMsgId := none, gmThreadId := none, sender := "a@b.c",
    subject := "s", date := (u : Int), read := false, flags := [],
    body := "t", folder := "INBOX", folders := [] }

def bigSrv (n : Nat) : ImapServer :=
  { boxes := [{ name := "INBOX", delimiter := "/", attribs := [], children := [] }],
    folder := fun name =>
      if name = "INBOX" then
        FolderBehavior.opened n
          (fun _ => Except.ok ((List.range n).map (fun i => i + 1)))
          (fun us => Except.ok (us.map bigItem))
      else FolderBehavior.openFail "no such folder" }

def bigReq (n : Nat) : FetchReq :=
  { folder := "INBOX", fetchAllFolders := true, startDate := none,
    endDate := none, status := "all", maxResults := n,
    subjectSearchTerm := none }

/-- The count of returned messages (0 for an error response). -/
def fetchCount (r : Except String (List Email)) : Nat :=
  match r with
  | Except.ok l => l.length
  | Except.error _ => 0

theorem emit_bigItem (u : Nat) :
    emitItem "INBOX" (bigItem u) = some (bigEmail u) := rfl

theorem filterMap_emit_bigItem (us : List Nat) :
    (us.map bigItem).filterMap (emitItem "INBOX") = us.map bigEmail := by
  induction us with
  | nil => rfl
  | cons a l ih => simp [List.filterMap_cons, emit_bigItem, ih]

theorem perFolderLimit_ge_self (n : Nat) : n ≤ perFolderLimit n 1 := by
  unfold perFolderLimit
  rw [Nat.max_self]
  have hdiv : n ≤ (3 * n + (2 * 1 - 1)) / (2 * 1) :=
    (Nat.le_div_iff_mul_le (by norm_num)).mpr (by omega)
  exact le_trans hdiv (Nat.le_max_right _ _)

theorem big_fetch_eq (n : Nat) :
    fetchAndParseEmailsFromFolder "INBOX" ((bigSrv n).folder "INBOX")
        (buildSearchCriteria (bigReq n)) (perFolderLimit n 1)
      = Except.ok (((List.range n).map (fun i => i + 1)).map bigEmail) := by
  by_cases hn : n = 0
  · subst hn
    rfl
  · have hbehav : (bigSrv n).folder "INBOX"
        = FolderBehavior.opened n
            (fun _ => Except.ok ((List.range n).map (fun i => i + 1)))
            (fun us => Except.ok (us.map bigItem)) := by
      simp [bigSrv]
    rw [hbehav]
    simp only [fetchAndParseEmailsFromFolder]
    rw [if_neg hn]
    have huids : ((List.range n).map (fun i => i + 1)).isEmpty = false := by
      rcases hr : (List.range n).map (fun i => i + 1) with _ | ⟨a, t⟩
      · exfalso
        have := congrArg List.length hr
        simp at this
        exact hn this
      · rfl
    have hslice : jsSliceNeg ((List.range n).map (fun i => i + 1))
        (perFolderLimit n 1) = (List.range n).map (fun i => i + 1) := by
      apply jsSliceNeg_eq_self
      simp only [List.length_map, List.length_range]
      exact perFolderLimit_ge_self n
    rw [huids]
    simp only [Bool.false_eq_true, if_false, hslice, huids]
    rw [filterMap_emit_bigItem]

theorem bigCount_eq (n : Nat) :
    fetchCount (fetchEmailsEndpoint (bigSrv n) (bigReq n)) = n := by
  have hnames : flattenFolders (bigSrv n).boxes "" = ["INBOX"] := by
    simp [flattenFolders, bigSrv]
  have hskip : skipFolder "INBOX" = false := by decide
  have hcol : allCollected (bigSrv n) (bigReq n)
      = ((List.range n).map (fun i => i + 1)).map bigEmail := by
    unfold allCollected collectAllFolders
    rw [hnames]
    simp only [List.length_cons, List.length_nil, List.foldl_cons, List.foldl_nil,
      hskip, Bool.false_eq_true, if_false]
    have hmax : (bigReq n).maxResults = n := rfl
    rw [hmax, big_fetch_eq n]
    simp
  rw [fetchAll_endpoint_eq (bigSrv n) (bigReq n) rfl]
  simp only [fetchCount, List.length_take, sortByDateDesc, List.length_mergeSort]
  rw [hcol]
  simp [bigReq]

/-- Counterexample to C2 as stated: the overall returned result count is NOT
capped at any fixed ceiling independent of the user-requested maxResults.
Over a single-folder account holding n matching messages, requesting
maxResults = n returns exactly n messages, so for every putative ceiling C
the request with maxResults = C + 1 exceeds it. -/
theorem fetchAll_no_fixed_ceiling :
    ¬ ∃ C : Nat, ∀ n : Nat,
      fetchCount (fetchEmailsEndpoint (bigSrv n) (bigReq n)) ≤ C := by
  rintro ⟨C, hC⟩
  have h := hC (C + 1)
  rw [bigCount_eq] at h
  omega

/-- Witness for the amended C2, at a concrete all-folders request. -/
theorem fetchAllFolders_aggregation_witness :
    (bigReq 2).fetchAllFolders = true
    ∧ fetchEmailsEndpoint (bigSrv 2) (bigReq 2)
      = Except.ok ((sortByDateDesc (allCollected (bigSrv 2) (bigReq 2))).take
          (bigReq 2).maxResults) :=
  ⟨rfl, (fetchAllFolders_aggregation (bigSrv 2) (bigReq 2) rfl).1⟩

/-! ### Thread/subject grouping (Dashboard.tsx, handleProcess)

The source, for each email:

    const normalisedSubject = (email.subject || '')
      .replace(/^(re|fw|fwd):\s*/i, '')
      .replace(/\s+/g, ' ')
      .trim()
      .toLowerCase();
    const groupKey = (email.gmThreadId ? String(email.gmThreadId)
                                       : normalisedSubject) || '(no subject)';

then a Map from groupKey to the list of its messages (insertion order), and
for each group the newest by date with flags and folders merged:

    const newest = group.reduce((a, b) => new Date(a.date) > new Date(b.date) ? a : b);
    const allFlags = Array.from(new Set(group.flatMap(e => e.flags || [])));
    const allFolders = Array.from(new Set(group.map(e => e.folder)));
    return { ...newest, flags: allFlags, folders: allFolders };
-/

/-- replace(/^(re|fw|fwd):\s*/i, ''): strip one leading case-insensitive
reply/forward prefix together with the whitespace run after the colon. -/
def stripReFw (s : List Char) : List Char :=
  let low := jsLower s
  if low.take 3 = ['r', 'e', ':'] then (s.drop 3).dropWhile jsIsSpace
  else if low.take 4 = ['f', 'w', 'd', ':'] then (s.drop 4).dropWhile jsIsSpace
  else if low.take 3 = ['f', 'w', ':'] then (s.drop 3).dropWhile jsIsSpace
  else s

/-- The subject normalization of the grouping block: strip a leading
reply/forward prefix, collapse internal whitespace, trim, lowercase. -/
def normalisedSubject (subject : String) : String :=
  String.mk (jsLower (jsTrim (collapseWs (stripReFw subject.data))))

/-- The grouping key: the thread identifier when truthy, otherwise the
normalized subject, with the final falsy fallback to "(no subject)". -/
def groupKey (e : Email) : String :=
  let key :=
    match e.gmThreadId with
    | some t => if t = "" then normalisedSubject e.subject else t
    | none => normalisedSubject e.subject
  jsOrS key "(no subject)"

/-- Insert one email into the insertion-ordered association list modelling
the JavaScript Map of groups. -/
def insertGroup (gs : List (String × List Email)) (k : String) (e : Email) :
    List (String × List Email) :=
  match gs with
  | [] => [(k, [e])]
  | (k1, g) :: rest =>
    if k1 = k then (k1, g ++ [e]) :: rest
    else (k1, g) :: insertGroup rest k e

/-- The Map-building pass over the emails, in arrival order. -/
def buildGroups (emails : List Email) : List (String × List Email) :=
  emails.foldl (fun gs e => insertGroup gs (groupKey e) e) []

/-- group.reduce((a, b) => new Date(a.date) > new Date(b.date) ? a : b). -/
def newestOf (a : Email) (rest : List Email) : Email :=
  rest.foldl (fun x y => if y.date < x.date then x else y) a

/-- Array.from(new Set(l)): deduplicate keeping first occurrences.  The
fuel is an upper bound on the length, never exhausted on the initial call. -/
def dedupFirstGo : Nat → List String → List String
  | _, [] => []
  | 0, l => l
  | fuel + 1, a :: rest => a :: dedupFirstGo fuel (rest.filter (fun x => x ≠ a))

def dedupFirst (l : List String) : List String := dedupFirstGo l.length l

/-- Collapse one group: spread the newest member, with flags the union of
all members' flags and folders the set of all members' folder fields. -/
def mergeGroup : String × List Email → Email
  | (_, []) =>
    { id := 0, gmMsgId := none, gmThreadId := none, sender := "", subject := "",
      date := 0, read := false, flags := [], body := "", folder := "",
      folders := [] }
  | (_, a :: rest) =>
    { newestOf a rest with
      flags := dedupFirst ((a :: rest).flatMap (fun e => e.flags)),
      folders := dedupFirst ((a :: rest).map (fun e => e.folder)) }

/-- The grouping operation of handleProcess. -/
def groupEmails (emails : List Email) : List Email :=
  (buildGroups emails).map mergeGroup

/-- A normalized message with its flag and folder collections viewed as
sets, for comparing grouped outputs the way the spec describes them. -/
structure CEmail where
  id : Nat
  gmMsgId : Option Nat
  gmThreadId : Option String
  sender : String
  subject : String
  date : Int
  read : Bool
  flags : Finset String
  body : String
  folder : String
  folders : Finset String
deriving DecidableEq

def canonEmail (e : Email) : CEmail :=
  { id := e.id, gmMsgId := e.gmMsgId, gmThreadId := e.gmThreadId,
    sender := e.sender, subject := e.subject, date := e.date, read := e.read,
    flags := e.flags.toFinset, body := e.body, folder := e.folder,
    folders := e.folders.toFinset }

/-- The grouped output as a set of representative messages. -/
def groupedSet (emails : List Email) : Finset CEmail :=
  ((groupEmails emails).map canonEmail).toFinset

/-! ### Claim C4: the grouping key prefers the thread identifier -/

/-- C4.  A truthy thread identifier is used as the group key, whatever the
subject is; a message without one is keyed by its normalized subject
(prefix-stripped, whitespace-collapsed, trimmed, lowercased), with the
falsy fallback "(no subject)" when that normalization is empty. -/
theorem groupKey_prefers_threadId :
    (∀ (e : Email) (t : String), e.gmThreadId = some t → t ≠ "" →
        groupKey e = t ∧ (∀ s, groupKey { e with subject := s } = t))
    ∧ (∀ e : Email, e.gmThreadId = none →
        groupKey e = jsOrS (normalisedSubject e.subject) "(no subject)")
    ∧ (∀ e : Email, e.gmThreadId = none → normalisedSubject e.subject ≠ "" →
        groupKey e = normalisedSubject e.subject) := by
  refine ⟨?_, ?_, ?_⟩
  · intro e t ht hne
    constructor
    · simp [groupKey, ht, hne, jsOrS]
    · intro s
      simp [groupKey, ht, hne, jsOrS]
  · intro e hnone
    simp [groupKey, hnone]
  · intro e hnone hns
    simp [groupKey, hnone, jsOrS, hns]

def c4Mail : Email :=
  { id := 9, gmMsgId := none, gmThreadId := some "THR", sender := "p",
    subject := "Re: Budget", date := 5, read := false, flags := [],
    body := "", folder := "INBOX", folders := [] }

/-- Witness for C4: with a thread identifier the key is the identifier for
any subject; without one the key is the normalized subject. -/
theorem groupKey_prefers_threadId_witness :
    groupKey c4Mail = "THR"
    ∧ groupKey { c4Mail with subject := "Re: Other" } = "THR"
    ∧ groupKey { c4Mail with gmThreadId := none } = "budget" := by
  refine ⟨?_, ?_, ?_⟩
  · exact (groupKey_prefers_threadId.1 c4Mail "THR" rfl (by decide)).1
  · exact (groupKey_prefers_threadId.1 c4Mail "THR" rfl (by decide)).2 "Re: Other"
  · have h := groupKey_prefers_threadId.2.2 { c4Mail with gmThreadId := none }
      rfl (by decide)
    rw [h]
    decide

/-- Normalization behavior on representative subjects: prefix stripping is
case-insensitive and only applies at the very start, whitespace runs are
collapsed, the result is trimmed and lowercased. -/
theorem normalisedSubject_examples :
    normalisedSubject "Re: Hello   World " = "hello world"
    ∧ normalisedSubject "FWD:Quarterly  report" = "quarterly report"
    ∧ normalisedSubject "Fw: notes" = "notes"
    ∧ normalisedSubject "forward: x" = "forward: x" := by decide

/-! ### Claim C7: grouping as an order-independent, idempotent reduction -/

def c7a : Email :=
  { id := 1, gmMsgId := none, gmThreadId := none, sender := "x",
    subject := "a", date := 0, read := false, flags := ["L1"],
    body := "b1", folder := "F1", folders := [] }

def c7b : Email :=
  { id := 2, gmMsgId := none, gmThreadId := none, sender := "y",
    subject := "a", date := 1, read := false, flags := ["L2"],
    body := "b2", folder := "F2", folders := [] }

/-- Counterexample to C7 as stated: grouping is NOT idempotent.  Grouping
[c7a, c7b] merges the two same-subject messages into one representative
with folders \x7bF1, F2\x7d, but grouping that output again resets the
folder set to [F2] (the representative's own folder field), so the grouped
set changes. -/
theorem c7_grouping_not_idempotent :
    groupedSet (groupEmails [c7a, c7b]) ≠ groupedSet [c7a, c7b]
    ∧ (groupEmails [c7a, c7b]).map (fun e => e.folders) = [["F1", "F2"]]
    ∧ (groupEmails (groupEmails [c7a, c7b])).map (fun e => e.folders)
      = [["F2"]] := by
  refine ⟨by decide, by decide, by decide⟩

theorem dedupFirstGo_mem (x : String) :
    ∀ (fuel : Nat) (l : List String), l.length ≤ fuel →
      (x ∈ dedupFirstGo fuel l ↔ x ∈ l) := by
  intro fuel
  induction fuel with
  | zero =>
    intro l hl
    have : l = [] := List.eq_nil_of_length_eq_zero (Nat.le_zero.mp hl)
    subst this
    rfl
  | succ fuel ih =>
    intro l hl
    cases l with
    | nil => rfl
    | cons a rest =>
      simp only [dedupFirstGo, List.mem_cons]
      have hlen : (rest.filter (fun y => y ≠ a)).length ≤ fuel := by
        have h1 := List.length_filter_le (fun y => decide (y ≠ a)) rest
        simp only [List.length_cons] at hl
        omega
      rw [ih _ hlen]
      constructor
      · rintro (h | h)
        · exact Or.inl h
        · exact Or.inr (List.mem_of_mem_filter h)
      · rintro (h | h)
        · exact Or.inl h
        · by_cases hxa : x = a
          · exact Or.inl hxa
          · exact Or.inr (List.mem_filter.mpr ⟨h, by simpa using hxa⟩)

theorem dedupFirst_mem (x : String) (l : List String) :
    x ∈ dedupFirst l ↔ x ∈ l :=
  dedupFirstGo_mem x l.length l le_rfl

theorem dedupFirst_toFinset (l : List String) :
    (dedupFirst l).toFinset = l.toFinset := by
  ext x
  simp [dedupFirst_mem]

theorem newestOf_spec (rest : List Email) :
    ∀ a : Email,
      (newestOf a rest ∈ a :: rest)
      ∧ a.date ≤ (newestOf a rest).date
      ∧ (∀ x, x ∈ rest → x.date ≤ (newestOf a rest).date) := by
  induction rest with
  | nil =>
    intro a
    refine ⟨by simp [newestOf], le_rfl, by simp⟩
  | cons y t ih =>
    intro a
    have hstep : newestOf a (y :: t) = newestOf (if y.date < a.date then a else y) t := by
      simp [newestOf]
    obtain ⟨hmem, hacc, hall⟩ := ih (if y.date < a.date then a else y)
    refine ⟨?_, ?_, ?_⟩
    · rw [hstep]
      rcases List.mem_cons.mp hmem with h | h
      · rw [h]
        split <;> simp
      · simp [h]
    · rw [hstep]
      by_cases hy : y.date < a.date
      · rw [if_pos hy] at hacc ⊢
        exact hacc
      · rw [if_neg hy] at hacc ⊢
        push_neg at hy
        exact le_trans hy hacc
    · intro x hx
      rw [hstep]
      rcases List.mem_cons.mp hx with h | h
      · subst h
        by_cases hy : x.date < a.date
        · rw [if_pos hy] at hacc ⊢
          exact le_trans (le_of_lt hy) hacc
        · rw [if_neg hy] at hacc ⊢
          exact hacc
      · exact hall x h

theorem newestOf_unique (a a' : Email) (g g' : List Email)
    (hperm : (a :: g).Perm (a' :: g'))
    (hinj : ∀ x y, x ∈ a :: g → y ∈ a :: g → x.date = y.date → x = y) :
    newestOf a g = newestOf a' g' := by
  obtain ⟨hm, ha, hall⟩ := newestOf_spec g a
  obtain ⟨hm2, ha2, hall2⟩ := newestOf_spec g' a'
  have hmax : ∀ x, x ∈ a :: g → x.date ≤ (newestOf a g).date := by
    intro x hx
    rcases List.mem_cons.mp hx with h | h
    · rw [h]; exact ha
    · exact hall x h
  have hmax2 : ∀ x, x ∈ a' :: g' → x.date ≤ (newestOf a' g').date := by
    intro x hx
    rcases List.mem_cons.mp hx with h | h
    · rw [h]; exact ha2
    · exact hall2 x h
  have hm2' : newestOf a' g' ∈ a :: g := hperm.mem_iff.mpr hm2
  have h1 : (newestOf a g).date ≤ (newestOf a' g').date :=
    hmax2 _ (hperm.mem_iff.mp hm)
  have h2 : (newestOf a' g').date ≤ (newestOf a g).date := hmax _ hm2'
  exact hinj _ _ hm hm2' (le_antisymm h1 h2)

theorem insertGroup_keys (gs : List (String × List Email)) (k : String) (e : Email) :
    (insertGroup gs k e).map Prod.fst
      = if k ∈ gs.map Prod.fst then gs.map Prod.fst
        else gs.map Prod.fst ++ [k] := by
  induction gs with
  | nil => simp [insertGroup]
  | cons p rest ih =>
    rcases p with ⟨k1, g1⟩
    by_cases hk : k1 = k
    · subst hk
      simp [insertGroup]
    · simp only [insertGroup, if_neg hk, List.map_cons, ih]
      have : (k ∈ k1 :: rest.map Prod.fst) ↔ (k ∈ rest.map Prod.fst) := by
        simp [List.mem_cons]
        intro hkk
        exact absurd hkk.symm hk
      by_cases hmem : k ∈ rest.map Prod.fst
      · simp [hmem, this]
      · simp only [if_neg hmem]
        rw [if_neg]
        · simp
        · rw [this]
          exact hmem

theorem insertGroup_entries (k : String) (e : Email) :
    ∀ (gs : List (String × List Email)), (gs.map Prod.fst).Nodup →
    ∀ (k1 : String) (g1 : List Email), (k1, g1) ∈ insertGroup gs k e →
    (k1 ≠ k ∧ (k1, g1) ∈ gs)
    ∨ (k1 = k ∧ ((k ∉ gs.map Prod.fst ∧ g1 = [e])
        ∨ ∃ g0, (k, g0) ∈ gs ∧ g1 = g0 ++ [e])) := by
  intro gs
  induction gs with
  | nil =>
    intro _ k1 g1 h
    have h' : (k1, g1) = (k, [e]) := by simpa [insertGroup] using h
    have hk1 : k1 = k := congrArg Prod.fst h'
    have hg1 : g1 = [e] := congrArg Prod.snd h'
    exact Or.inr ⟨hk1, Or.inl ⟨by simp, hg1⟩⟩
  | cons p rest ih =>
    intro hnodup k1 g1 h
    rcases p with ⟨k2, g2⟩
    rw [List.map_cons] at hnodup
    obtain ⟨hk2notin, hrest⟩ := List.nodup_cons.mp hnodup
    by_cases hk : k2 = k
    · subst hk
      rw [show insertGroup ((k2, g2) :: rest) k2 e = (k2, g2 ++ [e]) :: rest from
        by simp [insertGroup]] at h
      rcases List.mem_cons.mp h with h1 | h1
      · have hk1 : k1 = k2 := congrArg Prod.fst h1
        have hg1 : g1 = g2 ++ [e] := congrArg Prod.snd h1
        exact Or.inr ⟨hk1, Or.inr ⟨g2, List.mem_cons_self _ _, hg1⟩⟩
      · by_cases hk1 : k1 = k2
        · exfalso
          apply hk2notin
          subst hk1
          exact List.mem_map.mpr ⟨(k1, g1), h1, rfl⟩
        · exact Or.inl ⟨hk1, List.mem_cons_of_mem _ h1⟩
    · rw [show insertGroup ((k2, g2) :: rest) k e = (k2, g2) :: insertGroup rest k e
        from by simp [insertGroup, hk]] at h
      rcases List.mem_cons.mp h with h1 | h1
      · have hk1 : k1 = k2 := congrArg Prod.fst h1
        have hg1 : g1 = g2 := congrArg Prod.snd h1
        refine Or.inl ⟨?_, ?_⟩
        · rw [hk1]
          exact hk
        · rw [hk1, hg1]
          exact List.mem_cons_self _ _
      · rcases ih hrest k1 g1 h1 with ⟨hne, hmem⟩ | ⟨heq, hcase⟩
        · exact Or.inl ⟨hne, List.mem_cons_of_mem _ hmem⟩
        · refine Or.inr ⟨heq, ?_⟩
          rcases hcase with ⟨hnot, hg⟩ | ⟨g0, hg0, hg⟩
          · refine Or.inl ⟨?_, hg⟩
            simp only [List.map_cons, List.mem_cons]
            rintro (hc | hc)
            · exact hk hc.symm
            · exact hnot hc
          · exact Or.inr ⟨g0, List.mem_cons_of_mem _ hg0, hg⟩

/-- The invariant tying the Map of groups to the processed emails: keys are
distinct, a key is present exactly when some processed email has it, and
each entry holds exactly the processed emails with that key, in order. -/
def GroupsSpec (msgs : List Email) (gs : List (String × List Email)) : Prop :=
  (gs.map Prod.fst).Nodup
  ∧ (∀ k, k ∈ gs.map Prod.fst ↔ k ∈ msgs.map groupKey)
  ∧ (∀ k g, (k, g) ∈ gs → g = msgs.filter (fun e2 => groupKey e2 = k))

theorem buildGroups_append (msgs : List Email) (e : Email) :
    buildGroups (msgs ++ [e]) = insertGroup (buildGroups msgs) (groupKey e) e := by
  simp [buildGroups, List.foldl_append]

theorem groupsSpec_insert (msgs : List Email) (gs : List (String × List Email))
    (e : Email) (h : GroupsSpec msgs gs) :
    GroupsSpec (msgs ++ [e]) (insertGroup gs (groupKey e) e) := by
  obtain ⟨hnodup, hkeys, hentries⟩ := h
  refine ⟨?_, ?_, ?_⟩
  · rw [insertGroup_keys]
    by_cases hmem : groupKey e ∈ gs.map Prod.fst
    · rw [if_pos hmem]
      exact hnodup
    · rw [if_neg hmem]
      refine List.Nodup.append hnodup (List.nodup_singleton _) ?_
      intro x hx1 hx2
      rw [List.mem_singleton] at hx2
      subst hx2
      exact hmem hx1
  · intro k1
    rw [insertGroup_keys]
    by_cases hmem : groupKey e ∈ gs.map Prod.fst
    · rw [if_pos hmem, hkeys k1]
      simp only [List.map_append, List.map_cons, List.map_nil, List.mem_append,
        List.mem_singleton]
      constructor
      · exact Or.inl
      · rintro (h1 | h1)
        · exact h1
        · subst h1
          exact (hkeys _).mp hmem
    · rw [if_neg hmem]
      simp only [List.map_append, List.map_cons, List.map_nil, List.mem_append,
        List.mem_singleton, hkeys k1]
  · intro k1 g1 hmem1
    have hchar := insertGroup_entries (groupKey e) e gs hnodup k1 g1 hmem1
    rw [List.filter_append]
    rcases hchar with ⟨hne, hmem2⟩ | ⟨heq, hcase⟩
    · rw [hentries k1 g1 hmem2]
      have hfe : List.filter (fun x => decide (groupKey x = k1)) [e] = [] := by
        simp only [List.filter_cons, List.filter_nil]
        rw [if_neg]
        simp only [decide_eq_true_eq]
        exact fun hcc => hne hcc.symm
      rw [hfe, List.append_nil]
    · subst heq
      rcases hcase with ⟨hnot, hg⟩ | ⟨g0, hg0, hg⟩
      · have hknotmsgs : groupKey e ∉ msgs.map groupKey :=
          fun hc => hnot ((hkeys _).mpr hc)
        have hfmsgs : msgs.filter (fun x => decide (groupKey x = groupKey e)) = [] := by
          rw [List.filter_eq_nil_iff]
          intro a ha
          simp only [decide_eq_true_eq]
          intro hcc
          exact hknotmsgs (List.mem_map.mpr ⟨a, ha, hcc⟩)
        rw [hg, hfmsgs]
        simp [List.filter_cons]
      · rw [hg, hentries _ g0 hg0]
        simp [List.filter_cons]

theorem buildGroups_spec (msgs : List Email) : GroupsSpec msgs (buildGroups msgs) := by
  induction msgs using List.reverseRecOn with
  | nil => exact ⟨by simp [buildGroups], by simp [buildGroups], by simp [buildGroups]⟩
  | append_singleton l e ih =>
    rw [buildGroups_append]
    exact groupsSpec_insert l (buildGroups l) e ih

theorem groupEmails_canon_mem (msgs : List Email) (c : CEmail) :
    c ∈ (groupEmails msgs).map canonEmail
    ↔ ∃ k, k ∈ msgs.map groupKey
        ∧ c = canonEmail (mergeGroup (k, msgs.filter (fun e2 => groupKey e2 = k))) := by
  obtain ⟨hnodup, hkeys, hentries⟩ := buildGroups_spec msgs
  unfold groupEmails
  constructor
  · intro hc
    rw [List.mem_map] at hc
    obtain ⟨em, hem, hceq⟩ := hc
    rw [List.mem_map] at hem
    obtain ⟨p, hp, hpe⟩ := hem
    rcases p with ⟨k, g⟩
    refine ⟨k, (hkeys k).mp (List.mem_map.mpr ⟨(k, g), hp, rfl⟩), ?_⟩
    rw [← hceq, ← hpe, hentries k g hp]
  · rintro ⟨k, hkmem, hc⟩
    have hk2 : k ∈ (buildGroups msgs).map Prod.fst := (hkeys k).mpr hkmem
    rw [List.mem_map] at hk2
    obtain ⟨p, hp, hpk⟩ := hk2
    rcases p with ⟨k1, g⟩
    have hk1 : k1 = k := hpk
    subst hk1
    rw [List.mem_map]
    refine ⟨mergeGroup (k1, g), List.mem_map.mpr ⟨(k1, g), hp, rfl⟩, ?_⟩
    have hg : g = msgs.filter (fun e2 => groupKey e2 = k1) := hentries k1 g hp
    rw [hc, hg]

theorem canon_mergeGroup_perm (k : String) (g g' : List Email) (hperm : g.Perm g')
    (hinj : ∀ x y, x ∈ g → y ∈ g → x.date = y.date → x = y) :
    canonEmail (mergeGroup (k, g)) = canonEmail (mergeGroup (k, g')) := by
  cases g with
  | nil =>
    have hnil : g' = [] := hperm.symm.eq_nil
    subst hnil
    rfl
  | cons a t =>
    cases g' with
    | nil =>
      have hnil := hperm.eq_nil
      simp at hnil
    | cons a1 t1 =>
      have hnew : newestOf a t = newestOf a1 t1 := newestOf_unique a a1 t t1 hperm hinj
      simp only [mergeGroup, canonEmail, CEmail.mk.injEq]
      rw [hnew]
      refine ⟨rfl, rfl, rfl, rfl, rfl, rfl, rfl, ?_, rfl, rfl, ?_⟩
      · rw [dedupFirst_toFinset, dedupFirst_toFinset]
        ext x
        simp only [List.mem_toFinset, List.mem_flatMap]
        constructor
        · rintro ⟨e2, he2, hx⟩
          exact ⟨e2, hperm.mem_iff.mp he2, hx⟩
        · rintro ⟨e2, he2, hx⟩
          exact ⟨e2, hperm.mem_iff.mpr he2, hx⟩
      · rw [dedupFirst_toFinset, dedupFirst_toFinset]
        ext x
        simp only [List.mem_toFinset, List.mem_map]
        constructor
        · rintro ⟨e2, he2, hx⟩
          exact ⟨e2, hperm.mem_iff.mp he2, hx⟩
        · rintro ⟨e2, he2, hx⟩
          exact ⟨e2, hperm.mem_iff.mpr he2, hx⟩

/-- C7 amended.  Grouping is an order-independent reduction on inputs whose
timestamps are distinct within each group (with equal timestamps the tie is
broken by arrival order): permuting the input leaves the grouped output
unchanged as a set of representatives with flag and folder collections
compared as sets.  Each group collects exactly the input messages sharing
its key; the representative carries the fields of a member with the latest
timestamp, its flag set is the union of the members' flags and its folder
set is the set of the members' folder fields.  Grouping is NOT idempotent
in general: regrouping a grouped output rebuilds the folder set from the
representatives' single folder field. -/
theorem groupEmails_order_independent (l1 l2 : List Email)
    (hperm : l1.Perm l2)
    (hinj : ∀ a b, a ∈ l1 → b ∈ l1 → groupKey a = groupKey b →
      a.date = b.date → a = b) :
    groupedSet l1 = groupedSet l2
    ∧ (∀ p, p ∈ buildGroups l1 →
        p.2 = l1.filter (fun e2 => groupKey e2 = p.1))
    ∧ (∀ p, p ∈ buildGroups l1 → ∃ m, m ∈ p.2
        ∧ (∀ x, x ∈ p.2 → x.date ≤ m.date)
        ∧ (∀ f, f ∈ (mergeGroup p).flags ↔ ∃ x, x ∈ p.2 ∧ f ∈ x.flags)
        ∧ (∀ f, f ∈ (mergeGroup p).folders ↔ ∃ x, x ∈ p.2 ∧ x.folder = f)
        ∧ mergeGroup p = { m with flags := (mergeGroup p).flags,
                                  folders := (mergeGroup p).folders }) := by
  refine ⟨?_, ?_, ?_⟩
  · unfold groupedSet
    ext c
    simp only [List.mem_toFinset]
    rw [groupEmails_canon_mem, groupEmails_canon_mem]
    constructor
    · rintro ⟨k, hk, hc⟩
      refine ⟨k, (hperm.map groupKey).mem_iff.mp hk, ?_⟩
      rw [hc]
      apply canon_mergeGroup_perm
      · exact hperm.filter _
      · intro x y hx hy hd
        have hkx : groupKey x = k := by
          simpa using (List.mem_filter.mp hx).2
        have hky : groupKey y = k := by
          simpa using (List.mem_filter.mp hy).2
        exact hinj x y (List.mem_of_mem_filter hx) (List.mem_of_mem_filter hy)
          (hkx.trans hky.symm) hd
    · rintro ⟨k, hk, hc⟩
      refine ⟨k, (hperm.map groupKey).mem_iff.mpr hk, ?_⟩
      rw [hc]
      apply canon_mergeGroup_perm
      · exact (hperm.filter _).symm
      · intro x y hx hy hd
        have hkx : groupKey x = k := by
          simpa using (List.mem_filter.mp hx).2
        have hky : groupKey y = k := by
          simpa using (List.mem_filter.mp hy).2
        have hx1 : x ∈ l1 := hperm.mem_iff.mpr (List.mem_of_mem_filter hx)
        have hy1 : y ∈ l1 := hperm.mem_iff.mpr (List.mem_of_mem_filter hy)
        exact hinj x y hx1 hy1 (hkx.trans hky.symm) hd
  · intro p hp
    rcases p with ⟨k, g⟩
    exact (buildGroups_spec l1).2.2 k g hp
  · intro p hp
    rcases p with ⟨k, g⟩
    obtain ⟨hnodup, hkeys, hentries⟩ := buildGroups_spec l1
    have hg : g = l1.filter (fun e2 => groupKey e2 = k) := hentries k g hp
    have hkmem : k ∈ l1.map groupKey :=
      (hkeys k).mp (List.mem_map.mpr ⟨(k, g), hp, rfl⟩)
    obtain ⟨x0, hx0, hkx0⟩ := List.mem_map.mp hkmem
    have hx0g : x0 ∈ g := by
      rw [hg]
      exact List.mem_filter.mpr ⟨hx0, by simp [hkx0]⟩
    cases g with
    | nil => simp at hx0g
    | cons a t =>
      obtain ⟨hmem, hacc, hall⟩ := newestOf_spec t a
      refine ⟨newestOf a t, hmem, ?_, ?_, ?_, ?_⟩
      · intro x hx
        rcases List.mem_cons.mp hx with h | h
        · rw [h]
          exact hacc
        · exact hall x h
      · intro f
        simp only [mergeGroup]
        rw [dedupFirst_mem]
        simp [List.mem_flatMap]
      · intro f
        simp only [mergeGroup]
        rw [dedupFirst_mem]
        exact List.mem_map
      · rfl

/-- Witness for the amended C7: the two-message input grouped in both
orders gives the same set of representatives (dates 0 and 1 are distinct). -/
theorem groupEmails_order_independent_witness :
    groupedSet [c7a, c7b] = groupedSet [c7b, c7a] := by
  refine (groupEmails_order_independent [c7a, c7b] [c7b, c7a]
    (List.Perm.swap c7b c7a []) ?_).1
  intro a b ha hb hk hd
  simp only [List.mem_cons, List.not_mem_nil, or_false] at ha hb
  rcases ha with ha | ha <;> rcases hb with hb | hb <;> subst ha <;> subst hb
  · rfl
  · exact absurd hd (by decide)
  · exact absurd hd (by decide)
  · rfl

/-! ### Tag extraction (EmailContext.tsx, processEmails individual branch)

For each defined tag, the marker is searched case-insensitively in the
current content; when found, the tag name is recorded once and a removal
loop repeatedly excises the occurrence found at or after the previous
match index:

    let startIndex = contentLower.indexOf(markerLower);
    while (startIndex > -1) {
      const endIndex = startIndex + marker.length;
      const beforeRemoval = cleanedContent;
      cleanedContent = cleanedContent.substring(0, startIndex)
                     + cleanedContent.substring(endIndex);
      contentLower = cleanedContent.toLowerCase();
      if (beforeRemoval === cleanedContent) break;
      startIndex = contentLower.indexOf(markerLower, startIndex);
    }

The loop is modelled with a fuel bounded by the content length: every
iteration that does not hit the no-progress break strictly shrinks the
content, so the fuel (length + 1) is never exhausted. -/

structure TagDef where
  name : String
  marker : String
deriving DecidableEq, Repr

def removeAllGo (marker : List Char) : Nat → List Char → Option Nat → List Char
  | _, cleaned, none => cleaned
  | 0, cleaned, some _ => cleaned
  | fuel + 1, cleaned, some s =>
    let next := cleaned.take s ++ cleaned.drop (s + marker.length)
    if next = cleaned then cleaned
    else removeAllGo marker fuel next (jsIndexOfFrom (jsLower marker) (jsLower next) s)

/-- The marker removal loop, started on the index of the first occurrence. -/
def removeAll (marker cleaned : List Char) (start : Option Nat) : List Char :=
  removeAllGo marker (cleaned.length + 1) cleaned start

/-- Process one defined tag against the current (content, names) state. -/
def extractStep (st : List Char × List String) (t : TagDef) :
    List Char × List String :=
  let markerLower := jsLower t.marker.data
  let contentLower := jsLower st.1
  if jsIncludes markerLower contentLower then
    let names2 := if t.name ∈ st.2 then st.2 else st.2 ++ [t.name]
    (removeAll t.marker.data st.1 (jsIndexOfFrom markerLower contentLower 0), names2)
  else
    (st.1, st.2)

/-- The tag parsing block: runs only when the response is non-empty and
tags are defined, folding over the defined tags in definition order. -/
def extractTags (definedTags : List TagDef) (content : String) :
    String × List String :=
  if content ≠ "" ∧ definedTags ≠ [] then
    let r := definedTags.foldl extractStep (content.data, [])
    (String.mk r.1, r.2)
  else (content, [])

/-- End-to-end scenario 4 of the spec: both occurrences of the marker are
removed and the tag is recorded once. -/
theorem extractTags_scenario4 :
    extractTags [{ name := "Urgent", marker := "[[Urgent]]" }]
      "Task found [[Urgent]] please review [[Urgent]] soon"
    = ("Task found  please review  soon", ["Urgent"]) := by decide

/-- Counterexample to C5 as stated: with tag marker "ab" and response
"aabb", the excision of "ab" at index 1 creates a new occurrence starting
at index 0, before the resume index, so the cleaned text "ab" still
contains the marker and re-running extraction finds a further match and
shrinks the text again: extraction is not exhaustive and not idempotent. -/
theorem c5_extraction_not_idempotent :
    extractTags [{ name := "T", marker := "ab" }] "aabb" = ("ab", ["T"])
    ∧ extractTags [{ name := "T", marker := "ab" }] "ab" = ("", ["T"]) := by
  constructor
  · decide
  · decide

theorem jsLower_length (s : List Char) : (jsLower s).length = s.length := by
  simp [jsLower]

theorem occursAt_le (pat s : List Char) (j : Nat) (hp : pat ≠ [])
    (h : occursAt pat s j = true) : j + pat.length ≤ s.length := by
  unfold occursAt at h
  rw [decide_eq_true_eq] at h
  have hlen := congrArg List.length h
  simp only [List.length_take, List.length_drop] at hlen
  have hpos : 0 < pat.length := List.length_pos.mpr hp
  omega

theorem idxSearchGo_some (pat s : List Char) :
    ∀ (fuel j0 j : Nat), idxSearchGo pat s fuel j0 = some j →
      j0 ≤ j ∧ occursAt pat s j = true
      ∧ ∀ i, j0 ≤ i → i < j → occursAt pat s i = false := by
  intro fuel
  induction fuel with
  | zero =>
    intro j0 j h
    simp [idxSearchGo] at h
  | succ fuel ih =>
    intro j0 j h
    simp only [idxSearchGo] at h
    by_cases hocc : occursAt pat s j0 = true
    · rw [if_pos hocc] at h
      have hj : j0 = j := Option.some.inj h
      subst hj
      exact ⟨le_rfl, hocc, fun i h1 h2 => absurd h2 (by omega)⟩
    · rw [if_neg hocc] at h
      obtain ⟨h1, h2, h3⟩ := ih (j0 + 1) j h
      refine ⟨by omega, h2, ?_⟩
      intro i hi1 hi2
      by_cases hij : i = j0
      · subst hij
        cases hb : occursAt pat s i
        · rfl
        · exact absurd hb hocc
      · exact h3 i (by omega) hi2

theorem idxSearchGo_none (pat s : List Char) :
    ∀ (fuel j0 : Nat), idxSearchGo pat s fuel j0 = none →
      ∀ i, j0 ≤ i → i < j0 + fuel → occursAt pat s i = false := by
  intro fuel
  induction fuel with
  | zero =>
    intro j0 _ i h1 h2
    omega
  | succ fuel ih =>
    intro j0 h i h1 h2
    simp only [idxSearchGo] at h
    by_cases hocc : occursAt pat s j0 = true
    · rw [if_pos hocc] at h
      exact absurd h (by simp)
    · rw [if_neg hocc] at h
      by_cases hij : i = j0
      · subst hij
        cases hb : occursAt pat s i
        · rfl
        · exact absurd hb hocc
      · exact ih (j0 + 1) h i (by omega) (by omega)

theorem jsIndexOfFrom_some (pat s : List Char) (start j : Nat)
    (h : jsIndexOfFrom pat s start = some j) :
    min start s.length ≤ j ∧ occursAt pat s j = true
    ∧ ∀ i, min start s.length ≤ i → i < j → occursAt pat s i = false := by
  unfold jsIndexOfFrom idxSearch at h
  exact idxSearchGo_some pat s _ _ _ h

theorem jsIndexOfFrom_none (pat s : List Char) (start : Nat) (hp : pat ≠ [])
    (h : jsIndexOfFrom pat s start = none) :
    ∀ i, min start s.length ≤ i → occursAt pat s i = false := by
  unfold jsIndexOfFrom idxSearch at h
  intro i hi
  have hmin : min start s.length ≤ s.length := min_le_right _ _
  by_cases hlt : i < min start s.length + (s.length + 1 - min start s.length)
  · exact idxSearchGo_none pat s _ _ h i hi hlt
  · cases hb : occursAt pat s i
    · rfl
    · have := occursAt_le pat s i hp hb
      have hpos : 0 < pat.length := List.length_pos.mpr hp
      omega

theorem removeAllGo_length_le (marker : List Char) :
    ∀ (fuel : Nat) (cleaned : List Char) (start : Option Nat),
      (removeAllGo marker fuel cleaned start).length ≤ cleaned.length := by
  intro fuel
  induction fuel with
  | zero =>
    intro cleaned start
    cases start <;> simp [removeAllGo]
  | succ fuel ih =>
    intro cleaned start
    cases start with
    | none => simp [removeAllGo]
    | some s =>
      simp only [removeAllGo]
      split
      · exact le_rfl
      · refine le_trans (ih _ _) ?_
        simp only [List.length_append, List.length_take, List.length_drop]
        omega

theorem jsLower_append (a b : List Char) : jsLower (a ++ b) = jsLower a ++ jsLower b := by
  simp [jsLower]

theorem jsLower_take (n : Nat) (l : List Char) :
    jsLower (l.take n) = (jsLower l).take n := by
  simp [jsLower, List.map_take]

theorem jsLower_drop (n : Nat) (l : List Char) :
    jsLower (l.drop n) = (jsLower l).drop n := by
  simp [jsLower, List.map_drop]

theorem occursAt_append_left (pat A B : List Char) (i : Nat)
    (hfit : i + pat.length ≤ A.length) :
    occursAt pat (A ++ B) i = occursAt pat A i := by
  unfold occursAt
  rw [List.drop_append_of_le_length (by omega)]
  rw [List.take_append_of_le_length (by simp only [List.length_drop]; omega)]

theorem occursAt_take (pat L : List Char) (s i : Nat)
    (hfit : i + pat.length ≤ s) :
    occursAt pat (L.take s) i = occursAt pat L i := by
  unfold occursAt
  rw [List.drop_take, List.take_take, min_eq_left (by omega)]

/-- An occurrence that fits entirely inside the kept prefix of an excision
was already an occurrence of the original text. -/
theorem occursAt_excise_prefix (pat L : List Char) (s e i : Nat)
    (hfit : i + pat.length ≤ s) (hs : s ≤ L.length)
    (h : occursAt pat (L.take s ++ L.drop e) i = true) :
    occursAt pat L i = true := by
  rw [occursAt_append_left pat (L.take s) (L.drop e) i
    (by simp only [List.length_take]; omega)] at h
  rwa [occursAt_take pat L s i hfit] at h

theorem removeAllGo_one_complete (marker : List Char) (hm : marker.length = 1) :
    ∀ (fuel : Nat) (cleaned : List Char) (start : Option Nat),
      cleaned.length < fuel →
      (match start with
       | none => ∀ i, occursAt (jsLower marker) (jsLower cleaned) i = false
       | some s => occursAt (jsLower marker) (jsLower cleaned) s = true
           ∧ ∀ i, i < s → occursAt (jsLower marker) (jsLower cleaned) i = false) →
      ∀ i, occursAt (jsLower marker)
        (jsLower (removeAllGo marker fuel cleaned start)) i = false := by
  have hml : (jsLower marker).length = 1 := by
    rw [jsLower_length]
    exact hm
  have hmlne : jsLower marker ≠ [] := by
    intro hc
    rw [hc] at hml
    simp at hml
  intro fuel
  induction fuel with
  | zero =>
    intro cleaned start h
    omega
  | succ fuel ih =>
    intro cleaned start hlen hP i
    cases start with
    | none =>
      simp only [removeAllGo]
      exact hP i
    | some s =>
      obtain ⟨hocc, hbelow⟩ := hP
      have hsb := occursAt_le _ _ _ hmlne hocc
      rw [hml, jsLower_length] at hsb
      simp only [removeAllGo]
      have hneq : cleaned.take s ++ cleaned.drop (s + marker.length) ≠ cleaned := by
        intro hcc
        have hlc := congrArg List.length hcc
        simp only [List.length_append, List.length_take, List.length_drop] at hlc
        omega
      rw [if_neg hneq]
      have hlow : jsLower (cleaned.take s ++ cleaned.drop (s + marker.length))
          = (jsLower cleaned).take s ++ (jsLower cleaned).drop (s + 1) := by
        rw [jsLower_append, jsLower_take, jsLower_drop, hm]
      have hlen2 : (cleaned.take s ++ cleaned.drop (s + marker.length)).length < fuel := by
        simp only [List.length_append, List.length_take, List.length_drop]
        omega
      have hpref : ∀ j, j < s →
          occursAt (jsLower marker)
            (jsLower (cleaned.take s ++ cleaned.drop (s + marker.length))) j = false := by
        intro j hj
        rw [hlow]
        cases hb : occursAt (jsLower marker)
            ((jsLower cleaned).take s ++ (jsLower cleaned).drop (s + 1)) j
        · rfl
        · exfalso
          have hback := occursAt_excise_prefix (jsLower marker) (jsLower cleaned)
            s (s + 1) j (by rw [hml]; omega) (by rw [jsLower_length]; omega) hb
          rw [hbelow j hj] at hback
          simp at hback
      rcases hidx : jsIndexOfFrom (jsLower marker)
          (jsLower (cleaned.take s ++ cleaned.drop (s + marker.length))) s
          with _ | s2
      · refine ih (cleaned.take s ++ cleaned.drop (s + marker.length)) none hlen2 ?_ i
        intro j
        by_cases hj : j < s
        · exact hpref j hj
        · refine jsIndexOfFrom_none _ _ _ hmlne hidx j ?_
          exact le_trans (min_le_left _ _) (by omega)
      · refine ih (cleaned.take s ++ cleaned.drop (s + marker.length)) (some s2)
          hlen2 ?_ i
        obtain ⟨h1, h2, h3⟩ := jsIndexOfFrom_some _ _ _ _ hidx
        refine ⟨h2, ?_⟩
        intro j hj
        by_cases hjs : j < s
        · exact hpref j hjs
        · exact h3 j (le_trans (min_le_left _ _) (by omega)) hj

/-- For a single-character marker no occurrence can straddle an excision
point, so the removal loop removes every occurrence: the cleaned text no
longer contains the marker. -/
theorem extractTags_single_char_complete (t : TagDef) (content : String)
    (hm : t.marker.data.length = 1) :
    jsIncludes (jsLower t.marker.data)
      (jsLower (extractTags [t] content).1.data) = false := by
  have hml : (jsLower t.marker.data).length = 1 := by
    rw [jsLower_length]
    exact hm
  have hmlne : jsLower t.marker.data ≠ [] := by
    intro hc
    rw [hc] at hml
    simp at hml
  unfold extractTags
  split
  · simp only [List.foldl_cons, List.foldl_nil]
    unfold extractStep
    by_cases hinc : jsIncludes (jsLower t.marker.data) (jsLower content.data) = true
    · simp only [hinc, if_true]
      obtain ⟨s, hs⟩ := Option.isSome_iff_exists.mp hinc
      rw [hs]
      obtain ⟨h1, h2, h3⟩ := jsIndexOfFrom_some _ _ _ _ hs
      have hcompl := removeAllGo_one_complete t.marker.data hm
        (content.data.length + 1) content.data (some s) (by omega)
        ⟨h2, fun i hi => h3 i (by omega) hi⟩
      rcases hI : jsIndexOfFrom (jsLower t.marker.data)
          (jsLower (removeAll t.marker.data content.data (some s))) 0 with _ | j
      · simp [jsIncludes, hI]
      · exfalso
        obtain ⟨g1, g2, g3⟩ := jsIndexOfFrom_some _ _ _ _ hI
        unfold removeAll at g2
        rw [hcompl j] at g2
        simp at g2
    · simp only [Bool.not_eq_true] at hinc
      simp only [hinc, Bool.false_eq_true, if_false]
  · rename_i hguard
    have hcontent : content = "" := by
      by_contra hc
      exact hguard ⟨hc, by simp⟩
    subst hcontent
    have hz : jsLower (("" : String).data) = [] := rfl
    rcases hI : jsIndexOfFrom (jsLower t.marker.data) [] 0 with _ | j
    · simp [jsIncludes, hz, hI]
    · exfalso
      obtain ⟨g1, g2, g3⟩ := jsIndexOfFrom_some _ _ _ _ hI
      have hb := occursAt_le _ _ _ hmlne g2
      rw [hml] at hb
      simp at hb

theorem extractStep_props (cleaned : List Char) (names : List String) (t : TagDef)
    (h : names.Nodup) :
    (extractStep (cleaned, names) t).2.Nodup
    ∧ (∀ n, n ∈ (extractStep (cleaned, names) t).2 → n ∈ names ∨ n = t.name)
    ∧ (extractStep (cleaned, names) t).1.length ≤ cleaned.length := by
  unfold extractStep
  by_cases hin : jsIncludes (jsLower t.marker.data) (jsLower cleaned) = true
  · simp only [hin, if_true]
    by_cases hmem : t.name ∈ names
    · simp only [if_pos hmem]
      refine ⟨h, fun n hn => Or.inl hn, ?_⟩
      exact removeAllGo_length_le _ _ _ _
    · simp only [if_neg hmem]
      refine ⟨?_, ?_, ?_⟩
      · refine List.Nodup.append h (List.nodup_singleton _) ?_
        intro x hx1 hx2
        rw [List.mem_singleton] at hx2
        subst hx2
        exact hmem hx1
      · intro n hn
        rcases List.mem_append.mp hn with h1 | h1
        · exact Or.inl h1
        · exact Or.inr (List.mem_singleton.mp h1)
      · exact removeAllGo_length_le _ _ _ _
  · simp only [Bool.not_eq_true] at hin
    simp only [hin, Bool.false_eq_true, if_false]
    exact ⟨h, fun n hn => Or.inl hn, le_rfl⟩

theorem extractFold_invariant (tags : List TagDef) :
    ∀ (cleaned : List Char) (names : List String), names.Nodup →
      (tags.foldl extractStep (cleaned, names)).2.Nodup
      ∧ (∀ n, n ∈ (tags.foldl extractStep (cleaned, names)).2 →
          n ∈ names ∨ ∃ t, t ∈ tags ∧ t.name = n)
      ∧ (tags.foldl extractStep (cleaned, names)).1.length ≤ cleaned.length := by
  induction tags with
  | nil =>
    intro cleaned names h
    exact ⟨h, fun n hn => Or.inl hn, le_rfl⟩
  | cons t ts ih =>
    intro cleaned names h
    simp only [List.foldl_cons]
    obtain ⟨h1, h2, h3⟩ := extractStep_props cleaned names t h
    obtain ⟨g1, g2, g3⟩ :=
      ih (extractStep (cleaned, names) t).1 (extractStep (cleaned, names) t).2 h1
    refine ⟨g1, ?_, le_trans g3 h3⟩
    intro n hn
    rcases g2 n hn with hcase | ⟨t2, ht2, hteq⟩
    · rcases h2 n hcase with hh | hh
      · exact Or.inl hh
      · exact Or.inr ⟨t, List.mem_cons_self _ _, hh.symm⟩
    · exact Or.inr ⟨t2, List.mem_cons_of_mem _ ht2, hteq⟩

theorem string_data_ne_nil (s : String) (h : s ≠ "") : s.data ≠ [] := by
  intro hc
  apply h
  have hmk : s = String.mk s.data := rfl
  rw [hmk, hc]

/-- C5 amended.  The removal loop excises the occurrence found at or after
the previous match index, so occurrences formed before the resume index by
an excision survive and re-running extraction can find further matches
(extraction is not idempotent in general).  What does hold: each matched
tag name is recorded exactly once (the result names are distinct and drawn
from the defined tags); the cleaned text never grows; the loop terminates
even when an excision fails to shrink the text, abandoning that marker and
keeping the text cleaned so far; a found non-empty marker has at least one
occurrence excised; and for a single-character marker, where no occurrence
can straddle an excision point, every occurrence is removed and the
cleaned text contains no further match. -/
theorem extractTags_loop_amended :
    (∀ tags content, (extractTags tags content).2.Nodup)
    ∧ (∀ tags content n, n ∈ (extractTags tags content).2 →
        ∃ t, t ∈ tags ∧ t.name = n)
    ∧ (∀ tags content, (extractTags tags content).1.length ≤ content.length)
    ∧ (∀ (marker : List Char) (fuel : Nat) (cleaned : List Char) (s : Nat),
        cleaned.take s ++ cleaned.drop (s + marker.length) = cleaned →
        removeAllGo marker (fuel + 1) cleaned (some s) = cleaned)
    ∧ (∀ (t : TagDef) (content : String), t.marker ≠ "" →
        jsIncludes (jsLower t.marker.data) (jsLower content.data) = true →
        (extractTags [t] content).1.length + t.marker.length ≤ content.length)
    ∧ (∀ (t : TagDef) (content : String), t.marker.data.length = 1 →
        jsIncludes (jsLower t.marker.data)
          (jsLower (extractTags [t] content).1.data) = false) := by
  refine ⟨?_, ?_, ?_, ?_, ?_, extractTags_single_char_complete⟩
  · intro tags content
    unfold extractTags
    split
    · exact (extractFold_invariant tags content.data [] List.nodup_nil).1
    · exact List.nodup_nil
  · intro tags content n hn
    unfold extractTags at hn
    split at hn
    · rcases (extractFold_invariant tags content.data [] List.nodup_nil).2.1 n hn
        with hc | hc
      · simp at hc
      · exact hc
    · simp at hn
  · intro tags content
    unfold extractTags
    split
    · exact (extractFold_invariant tags content.data [] List.nodup_nil).2.2
    · exact le_rfl
  · intro marker fuel cleaned s heq
    simp only [removeAllGo]
    rw [if_pos heq]
  · intro t content hm hinc
    have hmd : t.marker.data ≠ [] := string_data_ne_nil t.marker hm
    have hmld : jsLower t.marker.data ≠ [] := by
      simpa [jsLower] using hmd
    obtain ⟨s, hs⟩ := Option.isSome_iff_exists.mp hinc
    obtain ⟨hs1, hs2, hs3⟩ := jsIndexOfFrom_some _ _ _ _ hs
    have hocc := occursAt_le _ _ _ hmld hs2
    rw [jsLower_length, jsLower_length] at hocc
    have hmpos : 0 < t.marker.data.length := List.length_pos.mpr hmd
    have hcne : content ≠ "" := by
      intro hc
      rw [hc] at hocc
      have hz : (("" : String).data).length = 0 := rfl
      omega
    unfold extractTags
    rw [if_pos ⟨hcne, by simp⟩]
    simp only [List.foldl_cons, List.foldl_nil]
    unfold extractStep
    simp only [hinc, if_true]
    rw [hs]
    unfold removeAll
    simp only [removeAllGo]
    have hneq : content.data.take s ++ content.data.drop (s + t.marker.data.length)
        ≠ content.data := by
      intro hcc
      have hlc := congrArg List.length hcc
      simp only [List.length_append, List.length_take, List.length_drop] at hlc
      omega
    rw [if_neg hneq]
    have hle := removeAllGo_length_le t.marker.data content.data.length
      (content.data.take s ++ content.data.drop (s + t.marker.data.length))
      (jsIndexOfFrom (jsLower t.marker.data)
        (jsLower (content.data.take s
          ++ content.data.drop (s + t.marker.data.length))) s)
    have hnl : (content.data.take s
        ++ content.data.drop (s + t.marker.data.length)).length
        = content.data.length - t.marker.data.length := by
      simp only [List.length_append, List.length_take, List.length_drop]
      omega
    have hmkl : ∀ l : List Char, (String.mk l).length = l.length := fun l => rfl
    have hml : t.marker.length = t.marker.data.length := rfl
    have hcl : content.length = content.data.length := rfl
    rw [hnl] at hle
    rw [hmkl, hml, hcl]
    omega

/-- Witness for the amended C5: names are distinct, a non-shrinking
excision (start index past the end) keeps the text and stops, and a found
marker has at least one occurrence excised. -/
theorem extractTags_loop_amended_witness :
    (extractTags [{ name := "T", marker := "ab" }] "aabb").2.Nodup
    ∧ removeAllGo "ab".data (3 + 1) "xy".data (some 5) = "xy".data
    ∧ (extractTags [{ name := "T", marker := "ab" }] "aabb").1.length
        + ("ab" : String).length ≤ ("aabb" : String).length
    ∧ jsIncludes (jsLower ("x" : String).data)
        (jsLower (extractTags [{ name := "X", marker := "x" }] "axbxc").1.data)
      = false
    ∧ extractTags [{ name := "X", marker := "x" }] "axbxc" = ("abc", ["X"]) := by
  refine ⟨?_, ?_, ?_, ?_, by decide⟩
  · exact extractTags_loop_amended.1 [{ name := "T", marker := "ab" }] "aabb"
  · exact extractTags_loop_amended.2.2.2.1 "ab".data 3 "xy".data 5 (by decide)
  · exact extractTags_loop_amended.2.2.2.2.1 { name := "T", marker := "ab" } "aabb"
      (by decide) (by decide)
  · exact extractTags_loop_amended.2.2.2.2.2 { name := "X", marker := "x" } "axbxc"
      (by decide)

/-! ### Prompt substitution (utils/promptUtils.ts)

    variables.forEach(variable => {
      const escapedKey = variable.key.replace(/[.*+?^$\x7b\x7d()|[\]\\]/g, '\\$&');
      const regex = new RegExp(`\x7b` + escapedKey + `\x7d`, 'g');
      substitutedText = substitutedText.replace(regex, variable.value);
    });

Because the key is regex-escaped, the pattern matches exactly the literal
text `\x7bkey\x7d` (case-sensitive, no flags beyond g), so the regex is
modelled as a literal substring scan.  The value is passed as the
replacement STRING argument of String.replace, so ECMAScript
GetSubstitution expands dollar sequences in it: $$ is a dollar, $& the
matched text, a backquoted dollar the text before the match, a
dollar-quote the text after; with no capture groups any other sequence is
passed through unchanged. -/

/-- ECMAScript GetSubstitution on the replacement string. -/
def expandRepl (repl : List Char) (matched before after : List Char) : List Char :=
  match repl with
  | [] => []
  | '$' :: c :: rest =>
    if c = '$' then '$' :: expandRepl rest matched before after
    else if c = '&' then matched ++ expandRepl rest matched before after
    else if c = Char.ofNat 96 then before ++ expandRepl rest matched before after
    else if c = Char.ofNat 39 then after ++ expandRepl rest matched before after
    else '$' :: c :: expandRepl rest matched before after
  | c :: rest => c :: expandRepl rest matched before after

/-- One global-replace pass: scan for the literal pattern left to right,
splicing in the expanded replacement for each match.  The fuel bounds the
number of matches, which is at most the string length for a non-empty
pattern, so it is never exhausted on the initial call. -/
def replaceLoopGo (pat repl s : List Char) : Nat → Nat → List Char
  | 0, pos => s.drop pos
  | fuel + 1, pos =>
    match jsIndexOfFrom pat s pos with
    | none => s.drop pos
    | some j =>
      (s.drop pos).take (j - pos)
        ++ expandRepl repl pat (s.take j) (s.drop (j + pat.length))
        ++ replaceLoopGo pat repl s fuel (j + pat.length)

/-- JavaScript s.replace(new RegExp(escapedLiteral, g), repl). -/
def jsReplaceAll (pat repl s : List Char) : List Char :=
  if pat = [] then s else replaceLoopGo pat repl s (s.length + 1) 0

structure PromptVariable where
  key : String
  value : String
deriving DecidableEq, Repr

/-- substitutePromptVariables of utils/promptUtils.ts: fold the variables
in order over the prompt text. -/
def substitutePromptVariables (promptText : String)
    (vars : List PromptVariable) : String :=
  vars.foldl
    (fun acc v =>
      String.mk (jsReplaceAll ("\x7b" ++ v.key ++ "\x7d").data v.value.data acc.data))
    promptText

/-- C8 at its failing input (and the behaviors around it).  Replacement is
literal for ordinary values, placeholders with no matching variable stay
verbatim, and a USERNAME variable never substitutes a USER placeholder;
but a value containing a dollar replacement pattern is NOT inserted
literally: the function documentation promises the literal value, while
String.replace expands the pattern, so the output for value dollar-and is
the matched placeholder itself instead of the literal text. -/
theorem substitutePromptVariables_dollar_bug :
    substitutePromptVariables "Hello \x7bNAME\x7d, see \x7bMISSING\x7d"
        [{ key := "NAME", value := "Alice" }]
      = "Hello Alice, see \x7bMISSING\x7d"
    ∧ substitutePromptVariables "\x7bUSER\x7d"
        [{ key := "USERNAME", value := "Bob" }]
      = "\x7bUSER\x7d"
    ∧ substitutePromptVariables "Hello \x7bNAME\x7d"
        [{ key := "NAME", value := "$&" }]
      = "Hello \x7bNAME\x7d" := by
  refine ⟨?_, ?_, ?_⟩
  · decide
  · decide
  · decide

/-- C9.  The value is the replacement argument of a regex String.replace,
so dollar sequences in it are expanded ($& becomes the matched
placeholder, not the literal value), and variables are applied
sequentially, so a later key occurring in an earlier substituted value is
itself substituted. -/
theorem substitutePromptVariables_replace_semantics :
    substitutePromptVariables "a\x7bK\x7db" [{ key := "K", value := "$&" }]
      = "a\x7bK\x7db"
    ∧ substitutePromptVariables "a\x7bK\x7db" [{ key := "K", value := "$&" }]
      ≠ "a$&b"
    ∧ substitutePromptVariables "\x7bA\x7d"
        [{ key := "A", value := "x\x7bB\x7dy" }, { key := "B", value := "z" }]
      = "xzy" := by
  refine ⟨?_, ?_, ?_⟩
  · decide
  · decide
  · decide

/-! ### Individual AI dispatch and result correlation
(EmailContext.tsx, processEmails with processIndividually = true)

Each email gets its own completion call; a failed call is caught and still
produces a result object carrying the error message as content and an
explicit error field.  The completion outcome for each email is abstracted
as an `Except String String` (error message or raw response text); the
source's final null filter is the identity because both the try and catch
branches assign a result object. -/

structure ProcessedEmailResult where
  subject : String
  sender : String
  date : Int
  originalUid : Nat
  content : String
  tags : List String
  error : Option String
deriving DecidableEq, Repr

/-- Build the ProcessedEmailResult for one email from its dispatch outcome. -/
def processOne (definedTags : List TagDef) (email : Email)
    (outcome : Except String String) : ProcessedEmailResult :=
  match outcome with
  | Except.ok raw =>
    let r := extractTags definedTags raw
    { subject := jsOrS email.subject "(No Subject)",
      sender := jsOrS email.sender "N/A",
      date := email.date,
      originalUid := email.id,
      content := r.1,
      tags := r.2,
      error := none }
  | Except.error msg =>
    { subject := jsOrS email.subject "(No Subject)",
      sender := jsOrS email.sender "N/A",
      date := email.date,
      originalUid := email.id,
      content := "Error processing this email: " ++ msg,
      tags := [],
      error := some msg }

/-- The individual branch of processEmails: one result per dispatched
email, in dispatch order. -/
def processEmailsIndividual (definedTags : List TagDef) (emails : List Email)
    (outcomes : List (Except String String)) : List ProcessedEmailResult :=
  (emails.zip outcomes).map (fun p => processOne definedTags p.1 p.2)

/-- C6.  With one dispatch outcome per dispatched email, the number of
results equals the number of emails; the i-th result is built from the
i-th email and its own outcome; every result carries its source email's
identifier as originalUid; and a failed dispatch still yields a result
whose content is the error message and whose error field is populated. -/
theorem processEmails_individual_correlation
    (definedTags : List TagDef) (emails : List Email)
    (outcomes : List (Except String String))
    (hlen : outcomes.length = emails.length) :
    (processEmailsIndividual definedTags emails outcomes).length = emails.length
    ∧ (∀ (i : Nat)
        (hr : i < (processEmailsIndividual definedTags emails outcomes).length)
        (hi : i < emails.length) (ho : i < outcomes.length),
        (processEmailsIndividual definedTags emails outcomes)[i]
          = processOne definedTags emails[i] outcomes[i])
    ∧ (∀ e o, (processOne definedTags e o).originalUid = e.id)
    ∧ (∀ e msg,
        (processOne definedTags e (Except.error msg)).content
            = "Error processing this email: " ++ msg
        ∧ (processOne definedTags e (Except.error msg)).error = some msg
        ∧ (processOne definedTags e (Except.error msg)).tags = []) := by
  refine ⟨?_, ?_, ?_, ?_⟩
  · unfold processEmailsIndividual
    rw [List.length_map, List.length_zip, hlen]
    simp
  · intro i hr hi ho
    unfold processEmailsIndividual
    rw [List.getElem_map, List.getElem_zip]
  · intro e o
    cases o <;> rfl
  · intro e msg
    exact ⟨rfl, rfl, rfl⟩

def c6emails : List Email :=
  [ { id := 11, gmMsgId := none, gmThreadId := none, sender := "a@x.io",
      subject := "s1", date := 1, read := false, flags := [], body := "b1",
      folder := "INBOX", folders := [] },
    { id := 22, gmMsgId := none, gmThreadId := none, sender := "b@x.io",
      subject := "s2", date := 2, read := false, flags := [], body := "b2",
      folder := "INBOX", folders := [] },
    { id := 33, gmMsgId := none, gmThreadId := none, sender := "c@x.io",
      subject := "s3", date := 3, read := false, flags := [], body := "b3",
      folder := "INBOX", folders := [] } ]

def c6outcomes : List (Except String String) :=
  [Except.ok "Done [[Urgent]]", Except.error "rate limited",
   Except.ok "Nothing to do"]

def c6tags : List TagDef := [{ name := "Urgent", marker := "[[Urgent]]" }]

/-- Witness for C6 (end-to-end scenario 5): three dispatched messages with
the second failing still give three results, correlated by originalUid,
the middle one carrying the error. -/
theorem processEmails_individual_correlation_witness :
    (processEmailsIndividual c6tags c6emails c6outcomes).length = 3
    ∧ (processEmailsIndividual c6tags c6emails c6outcomes).map
        (fun r => r.originalUid) = [11, 22, 33]
    ∧ (processEmailsIndividual c6tags c6emails c6outcomes).map
        (fun r => r.error) = [none, some "rate limited", none]
    ∧ (processEmailsIndividual c6tags c6emails c6outcomes).map
        (fun r => r.content)
      = ["Done ", "Error processing this email: rate limited",
         "Nothing to do"] := by
  refine ⟨?_, by decide, by decide, by decide⟩
  exact (processEmails_individual_correlation c6tags c6emails c6outcomes rfl).1
